import Mathlib

/-!
Shallow embedding of `src/modules/CS_ST/tree/named_tree.h` (template class
`NamedTree<T>` with inner class `NamedNode`), a hierarchical-name-indexed
trie used as the lookup core of a named-data content store.

Modelling conventions, in correspondence with the C++ source:

* `ndn::Name` is an ordered sequence of opaque, totally ordered components;
  we model a component as `Nat` and a name as `List Nat` (the root name `"/"`
  is the empty list).
* `std::map<Component, shared_ptr<NamedNode>>` (`_children`) is modelled as
  an association list `List (Nat × NamedNode V)` kept strictly sorted by key;
  `std::map` iteration order is the sorted key order.
* `std::shared_ptr<T> _value` is `Option V`: the null shared pointer is
  `none`, so `hasValue()` (`_value != nullptr`) is `Option.isSome`.
* `std::weak_ptr` object identity is modelled with a generation number: every
  node allocation receives a fresh `gen` from the tree's allocation counter.
  An entry of the secondary index `_nodes` stores the key name together with
  the generation of the node it was created for; `weak_ptr::lock()` succeeds
  exactly when a node with that generation still sits at the key's path
  (nodes are created only by `tryCreateEmptyChild`, which stores them under
  the final component of their own name, and names are immutable, so a live
  registered node is always found at its own name's path).
* `_populated_nodes` is a `size_t`; its arithmetic is modelled exactly, as
  natural-number arithmetic modulo `2 ^ 64`.
* The upward pruning loop of `remove` (which walks parent references) is
  realised as the unwinding of a downward recursion along the path resolved
  from the index; the root is never pruned because `isValid()` holds for it.
* `findFirstFrom` can reach the end of the non-void function body without
  executing a `return` statement; that control path is modelled by the
  distinguished result `FFFOut.undef`.
* `findAllFrom` contains a `while` loop that need not terminate; it is
  modelled with an explicit fuel parameter, `none` meaning that the loop is
  still running after `fuel` iterations.
-/

/-- A name component (`ndn::Name::Component`), opaque and totally ordered. -/
abbrev Comp : Type := Nat

/-- A hierarchical name (`ndn::Name`): its list of components.  The root
name `"/"` has no components and is the empty list. -/
abbrev NName : Type := List Comp

/-- `ndn::Name::getPrefix(-1)`: the name without its final component. -/
def NName.dropLastComp (n : NName) : NName := n.dropLast

/-- `ndn::Name::get(-1)`: the final component (the source only evaluates
this on non-empty names; the default value covers the empty name). -/
def NName.lastComp (n : NName) : Comp := n.getLastD 0

/-- A trie vertex, `NamedTree<T>::NamedNode`: stored full name, optional
value (`shared_ptr<T>`, null = `none`) and the ordered children map.  The
`gen` field records the allocation identity of the node (used to model
`weak_ptr` staleness); the parent back-reference of the C++ class is not
stored, as it is recoverable: a node is the root exactly when the tree
reaches it by the empty path. -/
inductive NamedNode (V : Type) : Type where
  | mk (gen : Nat) (name : NName) (value : Option V)
       (children : List (Comp × NamedNode V)) : NamedNode V

namespace NamedNode

variable {V : Type}

/-- Allocation identity of the node (models the `shared_ptr` object). -/
def gen : NamedNode V → Nat
  | .mk g _ _ _ => g

/-- `getName()`: the stored full name. -/
def name : NamedNode V → NName
  | .mk _ n _ _ => n

/-- The stored value; `getValue()` returns it, null represented by `none`. -/
def value : NamedNode V → Option V
  | .mk _ _ v _ => v

/-- The ordered children map (`_children`). -/
def children : NamedNode V → List (Comp × NamedNode V)
  | .mk _ _ _ cs => cs

/-- `hasValue()`: `_value != nullptr`. -/
def hasValue (nd : NamedNode V) : Bool := nd.value.isSome

/-- `hasChildren()`: `!_children.empty()`. -/
def hasChildren (nd : NamedNode V) : Bool := !nd.children.isEmpty

/-- `setValue(v)` / `clearValue()` (the latter is `setValue none`). -/
def setValue (nd : NamedNode V) (v : Option V) : NamedNode V :=
  .mk nd.gen nd.name v nd.children

/-- Replace the children map, keeping identity, name and value. -/
def withChildren (nd : NamedNode V) (cs : List (Comp × NamedNode V)) :
    NamedNode V :=
  .mk nd.gen nd.name nd.value cs

/-- `isValid()`: `!_children.empty() || _value || _parent.expired()`.  The
parent reference is expired exactly for the root, which the caller knows
positionally; it is passed as the flag `isRoot`. -/
def isValid (nd : NamedNode V) (isRoot : Bool) : Bool :=
  nd.hasChildren || nd.hasValue || isRoot

end NamedNode

/-- `_children.find(c)` of `std::map`: the child stored under component
`c`, if any (`getChild`). -/
def childFind {V : Type} : List (Comp × NamedNode V) → Comp →
    Option (NamedNode V)
  | [], _ => none
  | (c, n) :: t, c' => if c = c' then some n else childFind t c'

/-- Store `n` under key `c` in the sorted children map: insert at the sorted
position if the key is absent, replace the mapped node if present.  This is
the effect on `std::map` of `emplace` followed by later in-place mutation of
the mapped `shared_ptr`'s pointee. -/
def setChild {V : Type} : List (Comp × NamedNode V) → Comp → NamedNode V →
    List (Comp × NamedNode V)
  | [], c, n => [(c, n)]
  | (c', n') :: t, c, n =>
    if c < c' then (c, n) :: (c', n') :: t
    else if c = c' then (c, n) :: t
    else (c', n') :: setChild t c n

/-- `_children.erase(c)` (`delChild`): drop the entry stored under `c`. -/
def eraseChild {V : Type} : List (Comp × NamedNode V) → Comp →
    List (Comp × NamedNode V)
  | [], _ => []
  | (c', n') :: t, c => if c' = c then t else (c', n') :: eraseChild t c

namespace NamedNode

variable {V : Type}

/-- `getChild(component)`. -/
def getChild (nd : NamedNode V) (c : Comp) : Option (NamedNode V) :=
  childFind nd.children c

/-- `getLeftChild()`: `_children.begin()`, the least key. -/
def getLeftChild (nd : NamedNode V) : Option (NamedNode V) :=
  (nd.children.head?).map Prod.snd

/-- `getRightChild()`: `_children.rbegin()`, the greatest key. -/
def getRightChild (nd : NamedNode V) : Option (NamedNode V) :=
  (nd.children.getLast?).map Prod.snd

/-- `getChildren()`, translated faithfully: the C++ constructs
`std::vector<shared_ptr<NamedNode>> children(_children.size())` — a vector
already holding `size` default-constructed (null) shared pointers — and then
`emplace_back`s every child, so the result is `size` null entries followed
by the children in component order.  A null entry is `none`. -/
def getChildren (nd : NamedNode V) : List (Option (NamedNode V)) :=
  List.replicate nd.children.length none ++
    nd.children.map (fun p => some p.2)

/-- `tryCreateEmptyChild(c)`: `_children.emplace(c, make_shared<NamedNode>
(name + c, this))`; returns whether a node was created together with the
node now stored under `c` (the existing one when the emplace failed).  The
fresh node's allocation identity is `g`, the tree's next free generation. -/
def tryCreateEmptyChild (nd : NamedNode V) (c : Comp) (g : Nat) :
    Bool × NamedNode V :=
  match childFind nd.children c with
  | some child => (false, child)
  | none => (true, .mk g (nd.name ++ [c]) none [])

/-- `addChild(node)`: `_name.getPrefix(-1) == node->getName() &&
_children.emplace(node->getName().get(-1), node).second`, with `&&`
short-circuiting — the emplace runs only when the name comparison holds,
and mutates the map only when it actually inserts.  Returns the `bool`
result together with the receiver after the call. -/
def addChild (nd : NamedNode V) (node : NamedNode V) : Bool × NamedNode V :=
  if nd.name.dropLastComp = node.name then
    match childFind nd.children node.name.lastComp with
    | some _ => (false, nd)
    | none =>
      (true, nd.withChildren (setChild nd.children node.name.lastComp node))
  else
    (false, nd)

end NamedNode

mutual

/-- Number of nodes of the subtree rooted at a node (the node included). -/
def countNodes {V : Type} : NamedNode V → Nat
  | .mk _ _ _ cs => 1 + countNodesList cs

/-- Sum of `countNodes` over a children map. -/
def countNodesList {V : Type} : List (Comp × NamedNode V) → Nat
  | [] => 0
  | (_, n) :: t => countNodes n + countNodesList t

end

mutual

/-- Number of value-holding nodes of the subtree rooted at a node. -/
def popCount {V : Type} : NamedNode V → Nat
  | .mk _ _ v cs => (if v.isSome then 1 else 0) + popCountList cs

/-- Sum of `popCount` over a children map. -/
def popCountList {V : Type} : List (Comp × NamedNode V) → Nat
  | [] => 0
  | (_, n) :: t => popCount n + popCountList t

end

/-- The keys of a children map are strictly increasing (the `std::map`
representation invariant). -/
def keysSortedB {V : Type} : List (Comp × NamedNode V) → Bool
  | [] => true
  | [_] => true
  | (c, _) :: (c', n') :: t =>
    decide (c < c') && keysSortedB ((c', n') :: t)

mutual

/-- Every children map of the subtree is strictly sorted by component. -/
def NamedNode.wfB {V : Type} : NamedNode V → Bool
  | .mk _ _ _ cs => keysSortedB cs && childrenWfB cs

/-- `NamedNode.wfB` over a children map. -/
def childrenWfB {V : Type} : List (Comp × NamedNode V) → Bool
  | [] => true
  | (_, n) :: t => n.wfB && childrenWfB t

end

/-- Walk the trie from `nd` along the components of `p`; `some` exactly when
every component has a matching child.  This is the path-resolution used to
interpret a stored (weak) node reference. -/
def nodeAt {V : Type} (nd : NamedNode V) : NName → Option (NamedNode V)
  | [] => some nd
  | c :: rest =>
    match childFind nd.children c with
    | some child => nodeAt child rest
    | none => none

/-- The secondary index `_nodes`: each entry is the key name together with
the allocation identity of the node the weak reference was taken from. -/
abbrev NIndex : Type := List (NName × Nat)

/-- `_nodes.find(name)`: the stored generation for the key, if present. -/
def idxFind : NIndex → NName → Option Nat
  | [], _ => none
  | (k, g) :: t, k' => if k = k' then some g else idxFind t k'

/-- `_nodes.emplace(name, node)`: adds the entry only when the key is
absent. -/
def idxEmplace (idx : NIndex) (k : NName) (g : Nat) : NIndex :=
  match idxFind idx k with
  | some _ => idx
  | none => (k, g) :: idx

/-- `_nodes.erase(name)` (and `_nodes.erase(it)` under unique keys): drop
the entries stored under the key. -/
def idxEraseKey : NIndex → NName → NIndex
  | [], _ => []
  | (k', g') :: t, k =>
    if k' = k then idxEraseKey t k else (k', g') :: idxEraseKey t k

/-- `weak_ptr::lock()` on the reference stored for key `k` with generation
`g`: succeeds iff the node of that allocation still sits at path `k`. -/
def resolve {V : Type} (root : NamedNode V) (k : NName) (g : Nat) :
    Option (NamedNode V) :=
  match nodeAt root k with
  | some nd => if nd.gen = g then some nd else none
  | none => none

/-- `size_t` modulus: the counter `_populated_nodes` wraps at `2 ^ 64`. -/
def sizeTMod : Nat := 2 ^ 64

/-- The tree, `NamedTree<T>`: the populated-node counter, the owned root,
the secondary index `_nodes`, and the allocation counter that hands out
`gen` identities for new nodes. -/
structure NamedTree (V : Type) : Type where
  populated : Nat
  root : NamedNode V
  index : NIndex
  nextGen : Nat

namespace NamedTree

variable {V : Type}

/-- The constructor `NamedTree()`: a root named `"/"` with no value and no
children, registered in `_nodes` under `"/"`. -/
def initialTree (V : Type) : NamedTree V :=
  { populated := 0
    root := .mk 0 [] none []
    index := [([], 0)]
    nextGen := 1 }

/-- `size()`: `_nodes.size()`. -/
def size (t : NamedTree V) : Nat := t.index.length

/-- `getPopulatedNodes()`: `_populated_nodes`. -/
def getPopulatedNodes (t : NamedTree V) : Nat := t.populated

/-- `find(name)`: index lookup; on a live reference return the node's value,
on a stale one evict the entry and return null.  The returned pair is
(result, tree after the call). -/
def find (t : NamedTree V) (name : NName) : Option V × NamedTree V :=
  match idxFind t.index name with
  | some g =>
    match resolve t.root name g with
    | some nd => (nd.value, t)
    | none => (none, { t with index := idxEraseKey t.index name })
  | none => (none, t)

/-- The walking loop shared by `findLastUntil`: current node, current
last-seen value, remaining components. -/
def findLastUntilGo {V : Type} (nd : NamedNode V) (value : Option V) :
    NName → NName × Option V
  | [] => (nd.name, value)
  | c :: rest =>
    match childFind nd.children c with
    | some child =>
      findLastUntilGo child
        (if child.hasValue then child.value else value) rest
    | none => (nd.name, value)

/-- `findLastUntil(name)`: walk from the root one component at a time while
a matching child exists, tracking the value of the most recently visited
node that has one, seeded with the root's value. -/
def findLastUntil (t : NamedTree V) (name : NName) : NName × Option V :=
  findLastUntilGo t.root t.root.value name

/-- The walking loop of `findAllUntil`: collects `(name, value)` of every
visited node that holds a value. -/
def findAllUntilGo {V : Type} (nd : NamedNode V)
    (acc : List (NName × Option V)) : NName → List (NName × Option V)
  | [] => acc
  | c :: rest =>
    match childFind nd.children c with
    | some child =>
      findAllUntilGo child
        (if child.hasValue then acc ++ [(child.name, child.value)] else acc)
        rest
    | none => acc

/-- `findAllUntil(name)`: same walk as `findLastUntil`, collecting every
value-holding visited node in root-to-deepest order, root included. -/
def findAllUntil (t : NamedTree V) (name : NName) :
    List (NName × Option V) :=
  findAllUntilGo t.root
    (if t.root.hasValue then [(t.root.name, t.root.value)] else []) name

end NamedTree

/-- Possible outcomes of `findFirstFrom`: an executed `return` statement
with its pair, or control reaching the end of the non-void function body
with no `return` executed (undefined behaviour in the C++ source). -/
inductive FFFOut (V : Type) : Type where
  | ret (p : NName × Option V) : FFFOut V
  | undef : FFFOut V

/-- The `do { ... } while (node = node->getLeftChild())` descent of
`findFirstFrom`: return the first value-holding node on the leftmost-child
path, `undef` when the descent runs out of children (the loop exits and the
function body ends with no `return`). -/
def descendLeft {V : Type} : NamedNode V → FFFOut V
  | .mk _ n v cs =>
    if v.isSome then .ret (n, v)
    else
      match cs with
      | (_, ch) :: _ => descendLeft ch
      | [] => .undef

namespace NamedTree

variable {V : Type}

/-- `findFirstFrom(name, rightmost)`: index lookup (absent or stale gives
`(Name(), nullptr)`, evicting a stale entry); if the node holds a value,
return it; otherwise take the rightmost child when the flag is set, the
leftmost otherwise, and descend via leftmost children until a value is
found.  When the probe runs out of children the C++ function body ends
without a `return`: `FFFOut.undef`. -/
def findFirstFrom (t : NamedTree V) (name : NName) (rightmost : Bool) :
    FFFOut V × NamedTree V :=
  match idxFind t.index name with
  | none => (.ret ([], none), t)
  | some g =>
    match resolve t.root name g with
    | none => (.ret ([], none), { t with index := idxEraseKey t.index name })
    | some node =>
      if node.value.isSome then (.ret (node.name, node.value), t)
      else
        match (if rightmost then node.getRightChild else node.getLeftChild)
          with
        | none => (.undef, t)
        | some n0 => (descendLeft n0, t)

/-- The `while (!node_stack.empty())` loop of `findAllFrom`, translated
faithfully: the popped stack top is bound to the unused variable `parent`,
while the appended pair and the pushed children always come from `node`,
the node the index lookup returned.  The stack holds the raw shared
pointers pushed by the loop, null ones included.  `fuel` bounds the number
of iterations; `none` means the loop is still running after `fuel`
iterations. -/
def findAllFromLoop (node : NamedNode V) :
    Nat → List (Option (NamedNode V)) → List (NName × Option V) →
    Option (List (NName × Option V))
  | _, [], acc => some acc
  | 0, _ :: _, _ => none
  | fuel + 1, _parent :: rest, acc =>
    findAllFromLoop node fuel (node.getChildren.reverse ++ rest)
      (acc ++ [(node.name, node.value)])

/-- `findAllFrom(name)`: index lookup (absent gives the empty vector, stale
evicts and gives the empty vector); otherwise run the stack loop seeded
with the resolved node. -/
def findAllFrom (t : NamedTree V) (name : NName) (fuel : Nat) :
    Option (List (NName × Option V)) × NamedTree V :=
  match idxFind t.index name with
  | none => (some [], t)
  | some g =>
    match resolve t.root name g with
    | some node => (findAllFromLoop node fuel [some node] [], t)
    | none => (some [], { t with index := idxEraseKey t.index name })

/-- Set the value of the node at path `p` (the in-place `node->setValue(v)`
reached through a locked reference); the tree is unchanged when no node
sits at `p`. -/
def setValueAt {V : Type} (nd : NamedNode V) (p : NName) (v : Option V) :
    NamedNode V :=
  match p with
  | [] => nd.setValue v
  | c :: rest =>
    match childFind nd.children c with
    | some child =>
      nd.withChildren (setChild nd.children c (setValueAt child rest v))
    | none => nd

/-- The creation walk of `insert` (the `it == _nodes.end()` branch): for
`i` from `0` to `name.size() - 1`, `tryCreateEmptyChild(name.get(i))`; when
a node was created, `_nodes.emplace(name.getPrefix(i + 1), node)` with the
fresh generation; finally `node->setValue(value)` at the terminal node.
`qp` is the query's consumed part `name.getPrefix(i)`, `g` the allocation
counter.  Returns the rebuilt subtree, the index and the counter. -/
def insertGo {V : Type} (v : Option V) :
    NName → NName → NamedNode V → NIndex → Nat →
    NamedNode V × NIndex × Nat
  | [], _, nd, idx, g => (nd.setValue v, idx, g)
  | c :: rest, qp, nd, idx, g =>
    match nd.tryCreateEmptyChild c g with
    | (created, child) =>
      let idx1 := if created then idxEmplace idx (qp ++ [c]) g else idx
      let g1 := if created then g + 1 else g
      let r := insertGo v rest (qp ++ [c]) child idx1 g1
      (nd.withChildren (setChild nd.children c r.1), r.2.1, r.2.2)

/-- `insert(name, value, replace)`: if the key is absent from `_nodes`, walk
from the root creating the missing path, set the value at the terminal node
and increment `_populated_nodes` (a `size_t`, hence modulo `2 ^ 64`); if
the key resolves to a live node, set the value and increment the counter
when the node holds none, overwrite without touching the counter when
`replace` is set, do nothing otherwise; a stale entry is evicted. -/
def insert (t : NamedTree V) (name : NName) (value : Option V)
    (replace : Bool) : NamedTree V :=
  match idxFind t.index name with
  | none =>
    match insertGo value name [] t.root t.index t.nextGen with
    | (root', idx', g') =>
      { populated := (t.populated + 1) % sizeTMod
        root := root'
        index := idx'
        nextGen := g' }
  | some g =>
    match resolve t.root name g with
    | some node =>
      if !node.hasValue then
        { t with
          root := setValueAt t.root name value
          populated := (t.populated + 1) % sizeTMod }
      else if replace then
        { t with root := setValueAt t.root name value }
      else t
    | none => { t with index := idxEraseKey t.index name }

/-- The body of `remove` after a successful lock, realised as a downward
recursion along the resolved path whose unwinding is the C++ upward pruning
loop: at the target, `clearValue()`; then, while the current node is
invalid (childless, value-less and not the root), erase its `_nodes` entry
under its stored name, detach it from its parent under the final component
of its stored name, and continue with the parent.  Returns `none` exactly
when the node at this position was pruned, together with the index after
the erasures performed at or below this position. -/
def removeGo {V : Type} (isRoot : Bool) (nd : NamedNode V) :
    NName → NIndex → Option (NamedNode V) × NIndex
  | [], idx =>
    let nd' := nd.setValue none
    if nd'.isValid isRoot then (some nd', idx)
    else (none, idxEraseKey idx nd'.name)
  | c :: rest, idx =>
    match childFind nd.children c with
    | none => (some nd, idx)
    | some child =>
      match removeGo false child rest idx with
      | (some child', idx') =>
        (some (nd.withChildren (setChild nd.children c child')), idx')
      | (none, idx') =>
        let nd1 := nd.withChildren (eraseChild nd.children child.name.lastComp)
        if nd1.isValid isRoot then (some nd1, idx')
        else (none, idxEraseKey idx' nd1.name)

/-- `remove(name)`: absent key is a no-op; a stale entry is evicted; a live
node has its value cleared, `_populated_nodes` is decremented (a `size_t`:
modulo `2 ^ 64`, wrapping at zero), and invalid nodes are pruned upward.
The root always satisfies `isValid()`, so the pruning never removes it and
the `Option.getD` fallback is never exercised. -/
def remove (t : NamedTree V) (name : NName) : NamedTree V :=
  match idxFind t.index name with
  | none => t
  | some g =>
    match resolve t.root name g with
    | none => { t with index := idxEraseKey t.index name }
    | some _ =>
      match removeGo true t.root name t.index with
      | (res, idx') =>
        { t with
          root := res.getD t.root
          index := idx'
          populated := (t.populated + (sizeTMod - 1)) % sizeTMod }

end NamedTree

/-- The allocation identity and stored name of a node — the data a live
index entry must agree with. -/
def stamp {V : Type} (nd : NamedNode V) : Nat × NName := (nd.gen, nd.name)

/-- The chain of nodes visited below the root by the longest-prefix walk:
one node per consumed component, stopping at the first missing child. -/
def visChain {V : Type} (nd : NamedNode V) : NName → List (NamedNode V)
  | [] => []
  | c :: rest =>
    match childFind nd.children c with
    | some child => child :: visChain child rest
    | none => []

/-- The value of the most recently visited node that has one, the initial
candidate `init` standing for the root's own (possibly absent) value. -/
def lastHolder {V : Type} (init : Option V) :
    List (NamedNode V) → Option V
  | [] => init
  | nd :: t => lastHolder (if nd.value.isSome then nd.value else init) t

/-- Specification-side restatement of `findLastUntil`, following §4.3 of
the specification word for word: walk from the root consuming one component
per step while a matching child exists; return the deepest name actually
reached together with the value of the most recently visited node that has
one, the root's own value (possibly absent) being the initial candidate. -/
def findLastUntilSpec {V : Type} (t : NamedTree V) (q : NName) :
    NName × Option V :=
  ((t.root :: visChain t.root q).getLastD t.root |>.name,
    lastHolder t.root.value (visChain t.root q))

/-- Consistency of a tree state: every index entry resolves to a live node
whose generation and stored name agree with the entry; every node of the
tree is registered; index keys are unique; all children maps are sorted;
and the index has exactly one entry per node of the tree. -/
structure TreeWF {V : Type} (t : NamedTree V) : Prop where
  resolveOK : ∀ e ∈ t.index, ∃ nd, nodeAt t.root e.1 = some nd ∧
    nd.gen = e.2 ∧ nd.name = e.1
  complete : ∀ q, (nodeAt t.root q).isSome → ∃ g, (q, g) ∈ t.index
  knodup : (t.index.map Prod.fst).Nodup
  twf : t.root.wfB = true
  sizeEq : t.index.length = countNodes t.root

/-- States reachable from the freshly constructed tree through the public
interface.  `findLastUntil` and `findAllUntil` are `const` and touch no
state, so they need no constructor. -/
inductive Reach {V : Type} : NamedTree V → Prop where
  | init : Reach (NamedTree.initialTree V)
  | insert (s : NamedTree V) (n : NName) (v : Option V) (r : Bool) :
      Reach s → Reach (NamedTree.insert s n v r)
  | remove (s : NamedTree V) (n : NName) :
      Reach s → Reach (NamedTree.remove s n)
  | find (s : NamedTree V) (n : NName) :
      Reach s → Reach (NamedTree.find s n).2
  | fff (s : NamedTree V) (n : NName) (b : Bool) :
      Reach s → Reach (NamedTree.findFirstFrom s n b).2
  | faf (s : NamedTree V) (n : NName) (fuel : Nat) :
      Reach s → Reach (NamedTree.findAllFrom s n fuel).2

/-- States reachable through the public interface when every `insert`
carries a non-null value and every `remove` targets a name whose node
currently holds a value (the discipline under which the populated-node
counter is exact). -/
inductive GReach {V : Type} : NamedTree V → Prop where
  | init : GReach (NamedTree.initialTree V)
  | insert (s : NamedTree V) (n : NName) (v : V) (r : Bool) :
      GReach s → GReach (NamedTree.insert s n (some v) r)
  | remove (s : NamedTree V) (n : NName) :
      GReach s → ((nodeAt s.root n).bind NamedNode.value).isSome →
      GReach (NamedTree.remove s n)
  | find (s : NamedTree V) (n : NName) :
      GReach s → GReach (NamedTree.find s n).2
  | fff (s : NamedTree V) (n : NName) (b : Bool) :
      GReach s → GReach (NamedTree.findFirstFrom s n b).2
  | faf (s : NamedTree V) (n : NName) (fuel : Nat) :
      GReach s → GReach (NamedTree.findAllFrom s n fuel).2

section NodeLemmas

variable {V : Type}

@[simp]
theorem NamedNode.gen_mk (g : Nat) (n : NName) (v : Option V)
    (cs : List (Comp × NamedNode V)) : (NamedNode.mk g n v cs).gen = g := rfl

@[simp]
theorem NamedNode.name_mk (g : Nat) (n : NName) (v : Option V)
    (cs : List (Comp × NamedNode V)) : (NamedNode.mk g n v cs).name = n := rfl

@[simp]
theorem NamedNode.value_mk (g : Nat) (n : NName) (v : Option V)
    (cs : List (Comp × NamedNode V)) :
    (NamedNode.mk g n v cs).value = v := rfl

@[simp]
theorem NamedNode.children_mk (g : Nat) (n : NName) (v : Option V)
    (cs : List (Comp × NamedNode V)) :
    (NamedNode.mk g n v cs).children = cs := rfl

@[simp]
theorem NamedNode.gen_setValue (nd : NamedNode V) (v : Option V) :
    (nd.setValue v).gen = nd.gen := rfl

@[simp]
theorem NamedNode.name_setValue (nd : NamedNode V) (v : Option V) :
    (nd.setValue v).name = nd.name := rfl

@[simp]
theorem NamedNode.value_setValue (nd : NamedNode V) (v : Option V) :
    (nd.setValue v).value = v := rfl

@[simp]
theorem NamedNode.children_setValue (nd : NamedNode V) (v : Option V) :
    (nd.setValue v).children = nd.children := rfl

@[simp]
theorem NamedNode.gen_withChildren (nd : NamedNode V)
    (cs : List (Comp × NamedNode V)) : (nd.withChildren cs).gen = nd.gen :=
  rfl

@[simp]
theorem NamedNode.name_withChildren (nd : NamedNode V)
    (cs : List (Comp × NamedNode V)) :
    (nd.withChildren cs).name = nd.name := rfl

@[simp]
theorem NamedNode.value_withChildren (nd : NamedNode V)
    (cs : List (Comp × NamedNode V)) :
    (nd.withChildren cs).value = nd.value := rfl

@[simp]
theorem NamedNode.children_withChildren (nd : NamedNode V)
    (cs : List (Comp × NamedNode V)) :
    (nd.withChildren cs).children = cs := rfl

@[simp]
theorem stamp_setValue (nd : NamedNode V) (v : Option V) :
    stamp (nd.setValue v) = stamp nd := rfl

@[simp]
theorem stamp_withChildren (nd : NamedNode V)
    (cs : List (Comp × NamedNode V)) :
    stamp (nd.withChildren cs) = stamp nd := rfl

theorem childFind_setChild_self (cs : List (Comp × NamedNode V)) (c : Comp)
    (n : NamedNode V) : childFind (setChild cs c n) c = some n := by
  induction cs with
  | nil => simp [setChild, childFind]
  | cons a t ih =>
    obtain ⟨c', n'⟩ := a
    by_cases h1 : c < c'
    · simp [setChild, childFind, h1]
    · by_cases h2 : c = c'
      · simp [setChild, childFind, h1, h2]
      · simp [setChild, childFind, h1, h2, Ne.symm h2, ih]

theorem childFind_setChild_other (cs : List (Comp × NamedNode V))
    (c c' : Comp) (n : NamedNode V) (h : c' ≠ c) :
    childFind (setChild cs c n) c' = childFind cs c' := by
  induction cs with
  | nil => simp [setChild, childFind, Ne.symm h]
  | cons a t ih =>
    obtain ⟨c'', n''⟩ := a
    by_cases h1 : c < c''
    · simp [setChild, childFind, h1, Ne.symm h]
    · by_cases h2 : c = c''
      · subst h2
        simp [setChild, childFind, h1, Ne.symm h]
      · simp only [setChild, if_neg h1, if_neg h2]
        by_cases h3 : c'' = c'
        · simp [childFind, h3]
        · simp [childFind, h3, ih]

theorem childFind_eraseChild_other (cs : List (Comp × NamedNode V))
    (c c' : Comp) (h : c' ≠ c) :
    childFind (eraseChild cs c) c' = childFind cs c' := by
  induction cs with
  | nil => simp [eraseChild]
  | cons a t ih =>
    obtain ⟨c'', n''⟩ := a
    by_cases h1 : c'' = c
    · subst h1
      simp [eraseChild, childFind, Ne.symm h]
    · by_cases h2 : c'' = c'
      · subst h2
        simp [eraseChild, childFind, h1]
      · simp [eraseChild, childFind, h1, h2, ih]

theorem childFind_mem (cs : List (Comp × NamedNode V)) (c : Comp)
    (n : NamedNode V) (h : childFind cs c = some n) : (c, n) ∈ cs := by
  induction cs with
  | nil => simp [childFind] at h
  | cons a t ih =>
    obtain ⟨c', n'⟩ := a
    by_cases h1 : c' = c
    · subst h1
      simp [childFind] at h
      subst h
      exact List.mem_cons_self _ _
    · simp [childFind, h1] at h
      exact List.mem_cons_of_mem _ (ih h)

theorem childFind_eq_none (cs : List (Comp × NamedNode V)) (c : Comp)
    (h : childFind cs c = none) : ∀ n : NamedNode V, (c, n) ∉ cs := by
  induction cs with
  | nil => simp
  | cons a t ih =>
    obtain ⟨c', n'⟩ := a
    by_cases h1 : c' = c
    · subst h1
      simp [childFind] at h
    · simp [childFind, h1] at h
      intro n hn
      rcases List.mem_cons.mp hn with h2 | h2
      · injection h2 with hc hn'
        exact h1 hc.symm
      · exact ih h n h2

theorem keysSortedB_iff_pairwise (cs : List (Comp × NamedNode V)) :
    keysSortedB cs = true ↔ (cs.map Prod.fst).Pairwise (· < ·) := by
  induction cs with
  | nil => simp [keysSortedB]
  | cons a t ih =>
    obtain ⟨c, n⟩ := a
    cases t with
    | nil => simp [keysSortedB]
    | cons b t' =>
      obtain ⟨c', n'⟩ := b
      rw [keysSortedB]
      simp only [Bool.and_eq_true, decide_eq_true_eq, ih, List.map_cons,
        List.pairwise_cons]
      constructor
      · rintro ⟨hlt, hrest⟩
        refine ⟨?_, hrest⟩
        intro x hx
        rcases List.mem_cons.mp hx with rfl | hx'
        · exact hlt
        · exact lt_trans hlt (hrest.1 x hx')
      · rintro ⟨hall, hrest⟩
        exact ⟨hall c' (List.mem_cons_self _ _), hrest⟩

theorem childrenWfB_iff_forall (cs : List (Comp × NamedNode V)) :
    childrenWfB cs = true ↔ ∀ p ∈ cs, p.2.wfB = true := by
  induction cs with
  | nil => simp [childrenWfB]
  | cons a t ih =>
    obtain ⟨c, n⟩ := a
    rw [childrenWfB]
    simp [ih]

theorem NamedNode.wfB_def (nd : NamedNode V) :
    nd.wfB = (keysSortedB nd.children && childrenWfB nd.children) := by
  cases nd
  rfl

theorem wfB_of_childFind {cs : List (Comp × NamedNode V)} {c : Comp}
    {n : NamedNode V} (hw : childrenWfB cs = true)
    (h : childFind cs c = some n) : n.wfB = true :=
  (childrenWfB_iff_forall cs).mp hw (c, n) (childFind_mem cs c n h)

theorem mem_setChild {cs : List (Comp × NamedNode V)} {c : Comp}
    {n : NamedNode V} {p : Comp × NamedNode V} (h : p ∈ setChild cs c n) :
    p = (c, n) ∨ p ∈ cs := by
  induction cs with
  | nil =>
    simp [setChild] at h
    exact Or.inl h
  | cons a t ih =>
    obtain ⟨c', n'⟩ := a
    by_cases h1 : c < c'
    · simp only [setChild, if_pos h1] at h
      rcases List.mem_cons.mp h with rfl | h2
      · exact Or.inl rfl
      · exact Or.inr h2
    · by_cases h2 : c = c'
      · simp only [setChild, if_neg h1, if_pos h2] at h
        rcases List.mem_cons.mp h with rfl | h3
        · exact Or.inl rfl
        · exact Or.inr (List.mem_cons_of_mem _ h3)
      · simp only [setChild, if_neg h1, if_neg h2] at h
        rcases List.mem_cons.mp h with rfl | h3
        · exact Or.inr (List.mem_cons_self _ _)
        · rcases ih h3 with h4 | h4
          · exact Or.inl h4
          · exact Or.inr (List.mem_cons_of_mem _ h4)

theorem map_fst_setChild_found {cs : List (Comp × NamedNode V)} {c : Comp}
    (n : NamedNode V) (hs : keysSortedB cs = true)
    (h : (childFind cs c).isSome) :
    (setChild cs c n).map Prod.fst = cs.map Prod.fst := by
  induction cs with
  | nil => simp [childFind] at h
  | cons a t ih =>
    obtain ⟨c', n'⟩ := a
    by_cases h2 : c' = c
    · subst h2
      have h1 : ¬ c' < c' := lt_irrefl c'
      simp [setChild, h1]
    · have hf : (childFind t c).isSome := by
        simpa [childFind, h2] using h
      have hlt : c' < c := by
        rcases Option.isSome_iff_exists.mp hf with ⟨m, hm⟩
        have hmem := childFind_mem t c m hm
        have hp := (keysSortedB_iff_pairwise _).mp hs
        simp only [List.map_cons, List.pairwise_cons] at hp
        exact hp.1 c (List.mem_map_of_mem Prod.fst hmem)
      have h1 : ¬ c < c' := not_lt_of_gt hlt
      have h2' : ¬ c = c' := fun hh => h2 hh.symm
      have hs' : keysSortedB t = true := by
        rw [keysSortedB_iff_pairwise] at hs ⊢
        simp only [List.map_cons, List.pairwise_cons] at hs
        exact hs.2
      simp [setChild, h1, h2', ih hs' hf]

theorem pairwise_keys_setChild {cs : List (Comp × NamedNode V)} {c : Comp}
    (n : NamedNode V) (hs : (cs.map Prod.fst).Pairwise (· < ·)) :
    ((setChild cs c n).map Prod.fst).Pairwise (· < ·) := by
  induction cs with
  | nil => simp [setChild]
  | cons a t ih =>
    obtain ⟨c', n'⟩ := a
    simp only [List.map_cons, List.pairwise_cons] at hs
    by_cases h1 : c < c'
    · simp only [setChild, if_pos h1, List.map_cons, List.pairwise_cons]
      refine ⟨?_, hs.1, hs.2⟩
      intro x hx
      rcases List.mem_cons.mp hx with rfl | hx'
      · exact h1
      · exact lt_trans h1 (hs.1 x hx')
    · by_cases h2 : c = c'
      · subst h2
        simp only [setChild, if_neg h1, if_pos]
        simp only [List.map_cons, List.pairwise_cons]
        exact hs
      · simp only [setChild, if_neg h1, if_neg h2, List.map_cons,
          List.pairwise_cons]
        refine ⟨?_, ih hs.2⟩
        intro x hx
        have h3 : c' < c := by
          rcases lt_trichotomy c c' with h | h | h
          · exact absurd h h1
          · exact absurd h h2
          · exact h
        rcases List.mem_map.mp hx with ⟨p, hp, rfl⟩
        rcases mem_setChild hp with rfl | hp'
        · exact h3
        · exact hs.1 p.1 (List.mem_map_of_mem Prod.fst hp')

theorem keysSortedB_setChild {cs : List (Comp × NamedNode V)} {c : Comp}
    (n : NamedNode V) (hs : keysSortedB cs = true) :
    keysSortedB (setChild cs c n) = true := by
  rw [keysSortedB_iff_pairwise] at hs ⊢
  exact pairwise_keys_setChild n hs

theorem childrenWfB_setChild {cs : List (Comp × NamedNode V)} {c : Comp}
    {n : NamedNode V} (hw : childrenWfB cs = true) (hn : n.wfB = true) :
    childrenWfB (setChild cs c n) = true := by
  rw [childrenWfB_iff_forall] at hw ⊢
  intro p hp
  rcases mem_setChild hp with rfl | hp'
  · exact hn
  · exact hw p hp'

theorem eraseChild_sublist (cs : List (Comp × NamedNode V)) (c : Comp) :
    List.Sublist (eraseChild cs c) cs := by
  induction cs with
  | nil => simp [eraseChild]
  | cons a t ih =>
    obtain ⟨c', n'⟩ := a
    by_cases h1 : c' = c
    · simp only [eraseChild, if_pos h1]
      exact List.sublist_cons_self _ _
    · simp only [eraseChild, if_neg h1]
      exact List.Sublist.cons₂ _ ih

theorem keysSortedB_eraseChild {cs : List (Comp × NamedNode V)} {c : Comp}
    (hs : keysSortedB cs = true) :
    keysSortedB (eraseChild cs c) = true := by
  rw [keysSortedB_iff_pairwise] at hs ⊢
  exact List.Pairwise.sublist (List.Sublist.map _ (eraseChild_sublist cs c))
    hs

theorem childrenWfB_eraseChild {cs : List (Comp × NamedNode V)} {c : Comp}
    (hw : childrenWfB cs = true) :
    childrenWfB (eraseChild cs c) = true := by
  rw [childrenWfB_iff_forall] at hw ⊢
  intro p hp
  exact hw p (List.Sublist.mem hp (eraseChild_sublist cs c))

theorem eraseChild_of_none {cs : List (Comp × NamedNode V)} {c : Comp}
    (h : childFind cs c = none) : eraseChild cs c = cs := by
  induction cs with
  | nil => rfl
  | cons a t ih =>
    obtain ⟨c', n'⟩ := a
    by_cases h1 : c' = c
    · subst h1
      simp [childFind] at h
    · simp only [childFind, if_neg h1] at h
      simp [eraseChild, h1, ih h]

theorem childFind_eraseChild_self {cs : List (Comp × NamedNode V)}
    {c : Comp} (hs : keysSortedB cs = true) :
    childFind (eraseChild cs c) c = none := by
  induction cs with
  | nil => rfl
  | cons a t ih =>
    obtain ⟨c', n'⟩ := a
    have hs' : keysSortedB t = true := by
      rw [keysSortedB_iff_pairwise] at hs ⊢
      simp only [List.map_cons, List.pairwise_cons] at hs
      exact hs.2
    by_cases h1 : c' = c
    · subst h1
      rw [eraseChild, if_pos rfl]
      cases hf : childFind t c' with
      | none => rfl
      | some m =>
        have hmem := childFind_mem t c' m hf
        have hp := (keysSortedB_iff_pairwise _).mp hs
        simp only [List.map_cons, List.pairwise_cons] at hp
        exact absurd (hp.1 c' (List.mem_map_of_mem Prod.fst hmem))
          (lt_irrefl c')
    · rw [eraseChild, if_neg h1, childFind, if_neg h1]
      exact ih hs'

theorem countNodesList_eq_sum (cs : List (Comp × NamedNode V)) :
    countNodesList cs = (cs.map (fun p => countNodes p.2)).sum := by
  induction cs with
  | nil => rfl
  | cons a t ih =>
    obtain ⟨c, n⟩ := a
    rw [countNodesList]
    simp [ih]

theorem popCountList_eq_sum (cs : List (Comp × NamedNode V)) :
    popCountList cs = (cs.map (fun p => popCount p.2)).sum := by
  induction cs with
  | nil => rfl
  | cons a t ih =>
    obtain ⟨c, n⟩ := a
    rw [popCountList]
    simp [ih]

theorem sumf_setChild_none (f : NamedNode V → Nat)
    {cs : List (Comp × NamedNode V)} {c : Comp} (n : NamedNode V)
    (h : childFind cs c = none) :
    ((setChild cs c n).map (fun p => f p.2)).sum =
      (cs.map (fun p => f p.2)).sum + f n := by
  induction cs with
  | nil => simp [setChild]
  | cons a t ih =>
    obtain ⟨c', n'⟩ := a
    by_cases h2 : c' = c
    · subst h2
      simp [childFind] at h
    · have h3 : childFind t c = none := by simpa [childFind, h2] using h
      by_cases h1 : c < c'
      · simp only [setChild, if_pos h1, List.map_cons, List.sum_cons]
        omega
      · have h2' : ¬ c = c' := fun hh => h2 hh.symm
        simp only [setChild, if_neg h1, if_neg h2', List.map_cons,
          List.sum_cons, ih h3]
        omega

theorem sumf_setChild_found (f : NamedNode V → Nat)
    {cs : List (Comp × NamedNode V)} {c : Comp} {old : NamedNode V}
    (n : NamedNode V) (hs : keysSortedB cs = true)
    (h : childFind cs c = some old) :
    ((setChild cs c n).map (fun p => f p.2)).sum + f old =
      (cs.map (fun p => f p.2)).sum + f n := by
  induction cs with
  | nil => simp [childFind] at h
  | cons a t ih =>
    obtain ⟨c', n'⟩ := a
    have hs' : keysSortedB t = true := by
      rw [keysSortedB_iff_pairwise] at hs ⊢
      simp only [List.map_cons, List.pairwise_cons] at hs
      exact hs.2
    by_cases h2 : c' = c
    · subst h2
      simp [childFind] at h
      subst h
      have hset : setChild ((c', n') :: t) c' n = (c', n) :: t := by
        simp [setChild, lt_irrefl]
      rw [hset]
      simp only [List.map_cons, List.sum_cons]
      omega
    · have h3 : childFind t c = some old := by
        simpa [childFind, h2] using h
      have hlt : c' < c := by
        have hmem := childFind_mem t c old h3
        have hp := (keysSortedB_iff_pairwise _).mp hs
        simp only [List.map_cons, List.pairwise_cons] at hp
        exact hp.1 c (List.mem_map_of_mem Prod.fst hmem)
      have h1 : ¬ c < c' := not_lt_of_gt hlt
      have h2' : ¬ c = c' := fun hh => h2 hh.symm
      simp only [setChild, if_neg h1, if_neg h2', List.map_cons,
        List.sum_cons]
      have := ih hs' h3
      omega

theorem sumf_eraseChild (f : NamedNode V → Nat)
    {cs : List (Comp × NamedNode V)} {c : Comp} {old : NamedNode V}
    (h : childFind cs c = some old) :
    ((eraseChild cs c).map (fun p => f p.2)).sum + f old =
      (cs.map (fun p => f p.2)).sum := by
  induction cs with
  | nil => simp [childFind] at h
  | cons a t ih =>
    obtain ⟨c', n'⟩ := a
    by_cases h2 : c' = c
    · subst h2
      simp [childFind] at h
      subst h
      have herase : eraseChild ((c', n') :: t) c' = t := by
        simp [eraseChild]
      rw [herase]
      simp only [List.map_cons, List.sum_cons]
      omega
    · have h3 : childFind t c = some old := by
        simpa [childFind, h2] using h
      have h4 := ih h3
      simp only [eraseChild, if_neg h2, List.map_cons, List.sum_cons]
      omega

theorem length_setChild_none {cs : List (Comp × NamedNode V)} {c : Comp}
    (n : NamedNode V) (h : childFind cs c = none) :
    (setChild cs c n).length = cs.length + 1 := by
  induction cs with
  | nil => simp [setChild]
  | cons a t ih =>
    obtain ⟨c', n'⟩ := a
    by_cases h2 : c' = c
    · subst h2
      simp [childFind] at h
    · have h3 : childFind t c = none := by simpa [childFind, h2] using h
      by_cases h1 : c < c'
      · simp [setChild, h1]
      · have h2' : ¬ c = c' := fun hh => h2 hh.symm
        simp [setChild, h1, h2', ih h3]

theorem length_setChild_found {cs : List (Comp × NamedNode V)} {c : Comp}
    (n : NamedNode V) (hs : keysSortedB cs = true)
    (h : (childFind cs c).isSome) :
    (setChild cs c n).length = cs.length := by
  have h1 := congrArg List.length (map_fst_setChild_found n hs h)
  simpa using h1

theorem length_eraseChild_found {cs : List (Comp × NamedNode V)} {c : Comp}
    (h : (childFind cs c).isSome) :
    (eraseChild cs c).length + 1 = cs.length := by
  induction cs with
  | nil => simp [childFind] at h
  | cons a t ih =>
    obtain ⟨c', n'⟩ := a
    by_cases h2 : c' = c
    · subst h2
      simp [eraseChild]
    · have h3 : (childFind t c).isSome := by
        simpa [childFind, h2] using h
      have h4 := ih h3
      simp only [eraseChild, if_neg h2, List.length_cons]
      omega

theorem countNodes_eq (nd : NamedNode V) :
    countNodes nd = 1 + countNodesList nd.children := by
  cases nd
  rw [countNodes]
  rfl

theorem popCount_eq (nd : NamedNode V) :
    popCount nd = (if nd.value.isSome then 1 else 0) +
      popCountList nd.children := by
  cases nd
  rw [popCount]
  rfl

theorem countNodes_pos (nd : NamedNode V) : 0 < countNodes nd := by
  rw [countNodes_eq]
  omega

end NodeLemmas

section WalkLemmas

variable {V : Type}

@[simp]
theorem nodeAt_nil (nd : NamedNode V) : nodeAt nd [] = some nd := rfl

theorem nodeAt_cons (nd : NamedNode V) (c : Comp) (rest : NName) :
    nodeAt nd (c :: rest) =
      (childFind nd.children c).bind (fun ch => nodeAt ch rest) := by
  rw [nodeAt]
  cases childFind nd.children c <;> rfl

theorem nodeAt_append (nd : NamedNode V) (p q : NName) :
    nodeAt nd (p ++ q) = (nodeAt nd p).bind (fun m => nodeAt m q) := by
  induction p generalizing nd with
  | nil => simp
  | cons c p' ih =>
    rw [List.cons_append, nodeAt_cons, nodeAt_cons]
    cases childFind nd.children c with
    | none => rfl
    | some ch => simp [ih]

theorem wfB_nodeAt {nd m : NamedNode V} {p : NName} (hw : nd.wfB = true)
    (h : nodeAt nd p = some m) : m.wfB = true := by
  induction p generalizing nd with
  | nil =>
    simp at h
    exact h ▸ hw
  | cons c p' ih =>
    rw [nodeAt_cons] at h
    cases hf : childFind nd.children c with
    | none => simp [hf] at h
    | some ch =>
      rw [hf] at h
      simp only [Option.some_bind] at h
      have hcw : ch.wfB = true := by
        rw [NamedNode.wfB_def, Bool.and_eq_true] at hw
        exact wfB_of_childFind hw.2 hf
      exact ih hcw h

theorem wfB_children {nd : NamedNode V} (hw : nd.wfB = true) :
    keysSortedB nd.children = true ∧ childrenWfB nd.children = true := by
  rw [NamedNode.wfB_def, Bool.and_eq_true] at hw
  exact hw

theorem nodeAt_setValueAt_stamp (p : NName) (nd : NamedNode V)
    (v : Option V) (q : NName) :
    (nodeAt (NamedTree.setValueAt nd p v) q).map stamp =
      (nodeAt nd q).map stamp := by
  induction p generalizing nd q with
  | nil =>
    cases q with
    | nil => simp [NamedTree.setValueAt]
    | cons c q' =>
      rw [NamedTree.setValueAt, nodeAt_cons, nodeAt_cons,
        NamedNode.children_setValue]
  | cons c p' ih =>
    rw [NamedTree.setValueAt]
    cases hf : childFind nd.children c with
    | none => rfl
    | some child =>
      cases q with
      | nil => simp
      | cons c' q' =>
        rw [nodeAt_cons, nodeAt_cons, NamedNode.children_withChildren]
        by_cases hcc : c' = c
        · subst hcc
          rw [childFind_setChild_self, hf]
          simp only [Option.some_bind]
          exact ih _ q'
        · rw [childFind_setChild_other _ _ _ _ hcc]

theorem nodeAt_setValueAt_self {nd m : NamedNode V} {p : NName}
    (v : Option V) (h : nodeAt nd p = some m) :
    nodeAt (NamedTree.setValueAt nd p v) p = some (m.setValue v) := by
  induction p generalizing nd with
  | nil =>
    simp at h
    subst h
    simp [NamedTree.setValueAt]
  | cons c p' ih =>
    rw [nodeAt_cons] at h
    cases hf : childFind nd.children c with
    | none => simp [hf] at h
    | some child =>
      rw [hf] at h
      simp only [Option.some_bind] at h
      rw [NamedTree.setValueAt, hf, nodeAt_cons,
        NamedNode.children_withChildren, childFind_setChild_self]
      simp only [Option.some_bind]
      exact ih h

theorem nodeAt_setValueAt_value (p : NName) (nd : NamedNode V)
    (v : Option V) (q : NName) (hq : q ≠ p) :
    (nodeAt (NamedTree.setValueAt nd p v) q).bind NamedNode.value =
      (nodeAt nd q).bind NamedNode.value := by
  induction p generalizing nd q with
  | nil =>
    cases q with
    | nil => exact absurd rfl hq
    | cons c q' =>
      rw [NamedTree.setValueAt, nodeAt_cons, nodeAt_cons,
        NamedNode.children_setValue]
  | cons c p' ih =>
    rw [NamedTree.setValueAt]
    cases hf : childFind nd.children c with
    | none => rfl
    | some child =>
      cases q with
      | nil => simp
      | cons c' q' =>
        rw [nodeAt_cons, nodeAt_cons, NamedNode.children_withChildren]
        by_cases hcc : c' = c
        · subst hcc
          rw [childFind_setChild_self, hf]
          simp only [Option.some_bind]
          refine ih _ q' ?_
          intro hcon
          exact hq (by rw [hcon])
        · rw [childFind_setChild_other _ _ _ _ hcc]

theorem wfB_setValueAt {nd : NamedNode V} (hw : nd.wfB = true) (p : NName)
    (v : Option V) : (NamedTree.setValueAt nd p v).wfB = true := by
  induction p generalizing nd with
  | nil =>
    rw [NamedTree.setValueAt, NamedNode.wfB_def,
      NamedNode.children_setValue]
    rw [NamedNode.wfB_def] at hw
    exact hw
  | cons c p' ih =>
    rw [NamedTree.setValueAt]
    cases hf : childFind nd.children c with
    | none => exact hw
    | some child =>
      obtain ⟨hs, hcw⟩ := wfB_children hw
      have hchild : child.wfB = true := wfB_of_childFind hcw hf
      rw [NamedNode.wfB_def, NamedNode.children_withChildren,
        Bool.and_eq_true]
      exact ⟨keysSortedB_setChild _ hs,
        childrenWfB_setChild hcw (ih hchild)⟩

theorem countNodes_setValueAt {nd : NamedNode V} (hw : nd.wfB = true)
    (p : NName) (v : Option V) :
    countNodes (NamedTree.setValueAt nd p v) = countNodes nd := by
  induction p generalizing nd with
  | nil =>
    rw [NamedTree.setValueAt, countNodes_eq, countNodes_eq,
      NamedNode.children_setValue]
  | cons c p' ih =>
    rw [NamedTree.setValueAt]
    cases hf : childFind nd.children c with
    | none => rfl
    | some child =>
      obtain ⟨hs, hcw⟩ := wfB_children hw
      have hchild : child.wfB = true := wfB_of_childFind hcw hf
      rw [countNodes_eq, countNodes_eq, NamedNode.children_withChildren,
        countNodesList_eq_sum, countNodesList_eq_sum]
      have hsum := sumf_setChild_found countNodes
        (NamedTree.setValueAt child p' v) hs hf
      have hihc := ih hchild
      omega

theorem popCount_setValueAt {nd m : NamedNode V} (hw : nd.wfB = true)
    {p : NName} (v : Option V) (h : nodeAt nd p = some m) :
    popCount (NamedTree.setValueAt nd p v) +
        (if m.value.isSome then 1 else 0) =
      popCount nd + (if v.isSome then 1 else 0) := by
  induction p generalizing nd with
  | nil =>
    simp at h
    subst h
    rw [NamedTree.setValueAt, popCount_eq, popCount_eq,
      NamedNode.children_setValue, NamedNode.value_setValue]
    omega
  | cons c p' ih =>
    rw [nodeAt_cons] at h
    cases hf : childFind nd.children c with
    | none => simp [hf] at h
    | some child =>
      rw [hf] at h
      simp only [Option.some_bind] at h
      obtain ⟨hs, hcw⟩ := wfB_children hw
      have hchild : child.wfB = true := wfB_of_childFind hcw hf
      rw [NamedTree.setValueAt, hf, popCount_eq, popCount_eq,
        NamedNode.children_withChildren, NamedNode.value_withChildren,
        popCountList_eq_sum, popCountList_eq_sum]
      have hsum := sumf_setChild_found popCount
        (NamedTree.setValueAt child p' v) hs hf
      have hihc := ih hchild h
      omega

theorem idxFind_mem {idx : NIndex} {k : NName} {g : Nat}
    (h : idxFind idx k = some g) : (k, g) ∈ idx := by
  induction idx with
  | nil => simp [idxFind] at h
  | cons e t ih =>
    obtain ⟨k', g'⟩ := e
    by_cases h1 : k' = k
    · subst h1
      simp [idxFind] at h
      subst h
      exact List.mem_cons_self _ _
    · simp [idxFind, h1] at h
      exact List.mem_cons_of_mem _ (ih h)

theorem idxFind_eq_none {idx : NIndex} {k : NName}
    (h : idxFind idx k = none) : k ∉ idx.map Prod.fst := by
  induction idx with
  | nil => simp
  | cons e t ih =>
    obtain ⟨k', g'⟩ := e
    by_cases h1 : k' = k
    · subst h1
      simp [idxFind] at h
    · simp [idxFind, h1] at h
      simp only [List.map_cons, List.mem_cons]
      push_neg
      exact ⟨fun hh => h1 hh.symm, ih h⟩

theorem idxFind_isSome_of_mem {idx : NIndex} {k : NName}
    (h : k ∈ idx.map Prod.fst) : (idxFind idx k).isSome := by
  induction idx with
  | nil => simp at h
  | cons e t ih =>
    obtain ⟨k', g'⟩ := e
    by_cases h1 : k' = k
    · simp [idxFind, h1]
    · simp only [List.map_cons, List.mem_cons] at h
      rcases h with h | h
    <;> first
      | exact absurd h.symm h1
      | simpa [idxFind, h1] using ih h

theorem idxEraseKey_sublist (idx : NIndex) (k : NName) :
    List.Sublist (idxEraseKey idx k) idx := by
  induction idx with
  | nil => simp [idxEraseKey]
  | cons e t ih =>
    obtain ⟨k', g'⟩ := e
    by_cases h1 : k' = k
    · simp only [idxEraseKey, if_pos h1]
      exact List.Sublist.trans ih (List.sublist_cons_self _ _)
    · simp only [idxEraseKey, if_neg h1]
      exact List.Sublist.cons₂ _ ih

theorem mem_idxEraseKey {idx : NIndex} {k : NName} {e : NName × Nat} :
    e ∈ idxEraseKey idx k ↔ e ∈ idx ∧ e.1 ≠ k := by
  induction idx with
  | nil => simp [idxEraseKey]
  | cons e' t ih =>
    obtain ⟨k', g'⟩ := e'
    by_cases h1 : k' = k
    · subst h1
      rw [idxEraseKey, if_pos rfl, ih]
      constructor
      · rintro ⟨h2, h3⟩
        exact ⟨List.mem_cons_of_mem _ h2, h3⟩
      · rintro ⟨h2, h3⟩
        rcases List.mem_cons.mp h2 with rfl | h4
        · exact absurd rfl h3
        · exact ⟨h4, h3⟩
    · rw [idxEraseKey, if_neg h1]
      simp only [List.mem_cons, ih]
      constructor
      · rintro (rfl | ⟨h2, h3⟩)
        · exact ⟨Or.inl rfl, h1⟩
        · exact ⟨Or.inr h2, h3⟩
      · rintro ⟨rfl | h2, h3⟩
        · exact Or.inl rfl
        · exact Or.inr ⟨h2, h3⟩

theorem idxEraseKey_of_not_mem {idx : NIndex} {k : NName}
    (h : k ∉ idx.map Prod.fst) : idxEraseKey idx k = idx := by
  induction idx with
  | nil => rfl
  | cons e t ih =>
    obtain ⟨k', g'⟩ := e
    simp only [List.map_cons, List.mem_cons] at h
    push_neg at h
    have h1 : ¬ k' = k := fun hh => h.1 hh.symm
    simp only [idxEraseKey, if_neg h1, ih h.2]

theorem length_idxEraseKey_mem {idx : NIndex} {k : NName}
    (hnd : (idx.map Prod.fst).Nodup) (h : k ∈ idx.map Prod.fst) :
    (idxEraseKey idx k).length + 1 = idx.length := by
  induction idx with
  | nil => simp at h
  | cons e t ih =>
    obtain ⟨k', g'⟩ := e
    simp only [List.map_cons, List.nodup_cons] at hnd
    by_cases h1 : k' = k
    · subst h1
      rw [idxEraseKey, if_pos rfl, idxEraseKey_of_not_mem hnd.1]
      simp
    · simp only [List.map_cons, List.mem_cons] at h
      rcases h with h | h
      · exact absurd h.symm h1
      · rw [idxEraseKey, if_neg h1]
        simp only [List.length_cons]
        rw [← ih hnd.2 h]

end WalkLemmas

section InsertLemmas

variable {V : Type}

theorem wfB_setValue (nd : NamedNode V) (v : Option V) :
    (nd.setValue v).wfB = nd.wfB := by
  rw [NamedNode.wfB_def, NamedNode.wfB_def, NamedNode.children_setValue]

theorem wfB_leaf (g : Nat) (n : NName) (v : Option V) :
    (NamedNode.mk g n v []).wfB = true := by
  rw [NamedNode.wfB_def]
  rfl

theorem nodeAt_leaf_isSome (g : Nat) (n : NName) (v : Option V)
    (q : NName) :
    (nodeAt (NamedNode.mk g n v ([] : List (Comp × NamedNode V))) q).isSome
      ↔ q = [] := by
  cases q with
  | nil => simp
  | cons c q' => simp [nodeAt_cons, childFind]

theorem insertGo_nil (v : Option V) (qp : NName) (nd : NamedNode V)
    (idx : NIndex) (g : Nat) :
    NamedTree.insertGo v [] qp nd idx g = (nd.setValue v, idx, g) := rfl

theorem insertGo_cons_found {nd : NamedNode V} {c : Comp}
    {child : NamedNode V} (hf : childFind nd.children c = some child)
    (v : Option V) (rest qp : NName) (idx : NIndex) (g : Nat) :
    NamedTree.insertGo v (c :: rest) qp nd idx g =
      (nd.withChildren (setChild nd.children c
          (NamedTree.insertGo v rest (qp ++ [c]) child idx g).1),
        (NamedTree.insertGo v rest (qp ++ [c]) child idx g).2.1,
        (NamedTree.insertGo v rest (qp ++ [c]) child idx g).2.2) := by
  rw [NamedTree.insertGo]
  simp [NamedNode.tryCreateEmptyChild, hf]

theorem insertGo_cons_new {nd : NamedNode V} {c : Comp}
    (hf : childFind nd.children c = none) (v : Option V) (rest qp : NName)
    (idx : NIndex) (g : Nat) :
    NamedTree.insertGo v (c :: rest) qp nd idx g =
      (nd.withChildren (setChild nd.children c
          (NamedTree.insertGo v rest (qp ++ [c])
            (NamedNode.mk g (nd.name ++ [c]) none [])
            (idxEmplace idx (qp ++ [c]) g) (g + 1)).1),
        (NamedTree.insertGo v rest (qp ++ [c])
          (NamedNode.mk g (nd.name ++ [c]) none [])
          (idxEmplace idx (qp ++ [c]) g) (g + 1)).2.1,
        (NamedTree.insertGo v rest (qp ++ [c])
          (NamedNode.mk g (nd.name ++ [c]) none [])
          (idxEmplace idx (qp ++ [c]) g) (g + 1)).2.2) := by
  rw [NamedTree.insertGo]
  simp [NamedNode.tryCreateEmptyChild, hf]

theorem insertGo_found_fst {nd child : NamedNode V} {c : Comp}
    (hf : childFind nd.children c = some child) (v : Option V)
    (rest qp : NName) (idx : NIndex) (g : Nat) :
    (NamedTree.insertGo v (c :: rest) qp nd idx g).1 =
      nd.withChildren (setChild nd.children c
        (NamedTree.insertGo v rest (qp ++ [c]) child idx g).1) := by
  rw [insertGo_cons_found hf]

theorem insertGo_found_idx {nd child : NamedNode V} {c : Comp}
    (hf : childFind nd.children c = some child) (v : Option V)
    (rest qp : NName) (idx : NIndex) (g : Nat) :
    (NamedTree.insertGo v (c :: rest) qp nd idx g).2.1 =
      (NamedTree.insertGo v rest (qp ++ [c]) child idx g).2.1 := by
  rw [insertGo_cons_found hf]

theorem insertGo_new_fst {nd : NamedNode V} {c : Comp}
    (hf : childFind nd.children c = none) (v : Option V) (rest qp : NName)
    (idx : NIndex) (g : Nat) :
    (NamedTree.insertGo v (c :: rest) qp nd idx g).1 =
      nd.withChildren (setChild nd.children c
        (NamedTree.insertGo v rest (qp ++ [c])
          (NamedNode.mk g (nd.name ++ [c]) none [])
          (idxEmplace idx (qp ++ [c]) g) (g + 1)).1) := by
  rw [insertGo_cons_new hf]

theorem insertGo_new_idx {nd : NamedNode V} {c : Comp}
    (hf : childFind nd.children c = none) (v : Option V) (rest qp : NName)
    (idx : NIndex) (g : Nat) :
    (NamedTree.insertGo v (c :: rest) qp nd idx g).2.1 =
      (NamedTree.insertGo v rest (qp ++ [c])
        (NamedNode.mk g (nd.name ++ [c]) none [])
        (idxEmplace idx (qp ++ [c]) g) (g + 1)).2.1 := by
  rw [insertGo_cons_new hf]

theorem insertGo_wfB (v : Option V) (rest : NName) :
    ∀ (qp : NName) (nd : NamedNode V) (idx : NIndex) (g : Nat),
    nd.wfB = true → (NamedTree.insertGo v rest qp nd idx g).1.wfB = true := by
  induction rest with
  | nil =>
    intro qp nd idx g hw
    rw [insertGo_nil]
    simpa [wfB_setValue] using hw
  | cons c rest ih =>
    intro qp nd idx g hw
    obtain ⟨hs, hcw⟩ := wfB_children hw
    cases hf : childFind nd.children c with
    | some child =>
      rw [insertGo_cons_found hf]
      have hchild := wfB_of_childFind hcw hf
      rw [NamedNode.wfB_def, NamedNode.children_withChildren,
        Bool.and_eq_true]
      exact ⟨keysSortedB_setChild _ hs,
        childrenWfB_setChild hcw (ih _ _ _ _ hchild)⟩
    | none =>
      rw [insertGo_cons_new hf]
      rw [NamedNode.wfB_def, NamedNode.children_withChildren,
        Bool.and_eq_true]
      exact ⟨keysSortedB_setChild _ hs,
        childrenWfB_setChild hcw (ih _ _ _ _ (wfB_leaf _ _ _))⟩

theorem insertGo_nodeAt_old (v : Option V) (rest : NName) :
    ∀ (qp : NName) (nd : NamedNode V) (idx : NIndex) (g : Nat) (q : NName)
    (m : NamedNode V), nodeAt nd q = some m →
    ∃ m', nodeAt (NamedTree.insertGo v rest qp nd idx g).1 q = some m' ∧
      stamp m' = stamp m ∧
      m'.value = (if q = rest then v else m.value) := by
  induction rest with
  | nil =>
    intro qp nd idx g q m h
    rw [insertGo_nil]
    cases q with
    | nil =>
      simp at h
      subst h
      exact ⟨nd.setValue v, by simp, rfl, by simp⟩
    | cons c q' =>
      refine ⟨m, ?_, rfl, by simp⟩
      rw [nodeAt_cons, NamedNode.children_setValue, ← nodeAt_cons]
      exact h
  | cons c rest ih =>
    intro qp nd idx g q m h
    cases hf : childFind nd.children c with
    | some child =>
      rw [insertGo_cons_found hf]
      cases q with
      | nil =>
        simp at h
        subst h
        refine ⟨_, rfl, ?_, ?_⟩
        · simp [stamp]
        · simp
      | cons c' q' =>
        by_cases hcc : c' = c
        · subst hcc
          rw [nodeAt_cons, hf] at h
          simp only [Option.some_bind] at h
          obtain ⟨m', hm', hst, hval⟩ := ih _ child idx g q' m h
          refine ⟨m', ?_, hst, ?_⟩
          · rw [nodeAt_cons, NamedNode.children_withChildren,
              childFind_setChild_self]
            simpa using hm'
          · simpa using hval
        · refine ⟨m, ?_, rfl, by simp [hcc]⟩
          rw [nodeAt_cons, NamedNode.children_withChildren,
            childFind_setChild_other _ _ _ _ hcc, ← nodeAt_cons]
          exact h
    | none =>
      rw [insertGo_cons_new hf]
      cases q with
      | nil =>
        simp at h
        subst h
        refine ⟨_, rfl, ?_, ?_⟩
        · simp [stamp]
        · simp
      | cons c' q' =>
        by_cases hcc : c' = c
        · subst hcc
          rw [nodeAt_cons, hf] at h
          simp at h
        · refine ⟨m, ?_, rfl, by simp [hcc]⟩
          rw [nodeAt_cons, NamedNode.children_withChildren,
            childFind_setChild_other _ _ _ _ hcc, ← nodeAt_cons]
          exact h

theorem insertGo_nodeAt_isSome (v : Option V) (rest : NName) :
    ∀ (qp : NName) (nd : NamedNode V) (idx : NIndex) (g : Nat) (q : NName),
    (nodeAt (NamedTree.insertGo v rest qp nd idx g).1 q).isSome ↔
      ((nodeAt nd q).isSome ∨ ∃ i, i ≤ rest.length ∧ q = rest.take i) := by
  induction rest with
  | nil =>
    intro qp nd idx g q
    rw [insertGo_nil]
    cases q with
    | nil => simp
    | cons c q' =>
      rw [nodeAt_cons, NamedNode.children_setValue, ← nodeAt_cons]
      simp
  | cons c rest ih =>
    intro qp nd idx g q
    have hshift : ∀ q' : NName,
        (∃ i, i ≤ rest.length + 1 ∧ (c :: q' : NName) = (c :: rest).take i)
          ↔ ∃ i, i ≤ rest.length ∧ q' = rest.take i := by
      intro q'
      constructor
      · rintro ⟨i, hi, hq⟩
        cases i with
        | zero => simp at hq
        | succ i' =>
          rw [List.take_succ_cons] at hq
          injection hq with h1 h2
          exact ⟨i', by omega, h2⟩
      · rintro ⟨i', hi, hq⟩
        exact ⟨i' + 1, by omega, by rw [List.take_succ_cons, hq]⟩
    cases hf : childFind nd.children c with
    | some child =>
      rw [insertGo_cons_found hf]
      cases q with
      | nil => simp
      | cons c' q' =>
        by_cases hcc : c' = c
        · subst hcc
          rw [nodeAt_cons, NamedNode.children_withChildren,
            childFind_setChild_self, nodeAt_cons, hf]
          simp only [Option.some_bind, List.length_cons]
          rw [ih _ child idx g q']
          rw [hshift q']
        · rw [nodeAt_cons, NamedNode.children_withChildren,
            childFind_setChild_other _ _ _ _ hcc, ← nodeAt_cons]
          simp only [List.length_cons]
          constructor
          · exact fun hh => Or.inl hh
          · rintro (hh | ⟨i, hi, hq⟩)
            · exact hh
            · cases i with
              | zero => simp at hq
              | succ i' =>
                rw [List.take_succ_cons] at hq
                injection hq with h1 h2
                exact absurd h1 hcc
    | none =>
      rw [insertGo_cons_new hf]
      cases q with
      | nil => simp
      | cons c' q' =>
        by_cases hcc : c' = c
        · subst hcc
          rw [nodeAt_cons, NamedNode.children_withChildren,
            childFind_setChild_self, nodeAt_cons, hf]
          simp only [Option.some_bind, Option.none_bind,
            List.length_cons]
          rw [ih _ _ _ _ q']
          rw [hshift q']
          rw [nodeAt_leaf_isSome]
          constructor
          · rintro (rfl | hh)
            · exact Or.inr ⟨0, by omega, rfl⟩
            · exact Or.inr hh
          · rintro (hh | ⟨i, hi, hq⟩)
            · simp at hh
            · cases i with
              | zero => exact Or.inl (by simpa using hq)
              | succ i' => exact Or.inr ⟨i' + 1, hi, hq⟩
        · rw [nodeAt_cons, NamedNode.children_withChildren,
            childFind_setChild_other _ _ _ _ hcc, ← nodeAt_cons]
          simp only [List.length_cons]
          constructor
          · exact fun hh => Or.inl hh
          · rintro (hh | ⟨i, hi, hq⟩)
            · exact hh
            · cases i with
              | zero => simp at hq
              | succ i' =>
                rw [List.take_succ_cons] at hq
                injection hq with h1 h2
                exact absurd h1 hcc

theorem idxFind_eq_none_of_not_mem {idx : NIndex} {k : NName}
    (h : k ∉ idx.map Prod.fst) : idxFind idx k = none := by
  cases hf : idxFind idx k with
  | none => rfl
  | some g =>
    exact absurd (List.mem_map_of_mem Prod.fst (idxFind_mem hf)) h

theorem take_ne_nil {rest : NName} {i : Nat} (hi : i < rest.length) :
    rest.take (i + 1) ≠ [] := by
  intro h
  have h2 : (rest.take (i + 1)).length = 0 := by rw [h]; rfl
  rw [List.length_take] at h2
  omega

theorem habs_found {nd child : NamedNode V} {c : Comp}
    (hf : childFind nd.children c = some child) {rest qp : NName}
    {idx : NIndex}
    (habs : ∀ i, i < (c :: rest : NName).length →
      nodeAt nd ((c :: rest).take (i + 1)) = none →
      (qp ++ (c :: rest).take (i + 1)) ∉ idx.map Prod.fst) :
    ∀ i, i < rest.length → nodeAt child (rest.take (i + 1)) = none →
      ((qp ++ [c]) ++ rest.take (i + 1)) ∉ idx.map Prod.fst := by
  intro i hi hnone
  have h1 : nodeAt nd ((c :: rest).take (i + 2)) = none := by
    rw [List.take_succ_cons, nodeAt_cons, hf]
    simpa using hnone
  have h2 := habs (i + 1) (by simp; omega) h1
  rw [List.take_succ_cons] at h2
  simpa [List.append_assoc] using h2

theorem habs_new {nd : NamedNode V} {c : Comp}
    (hf : childFind nd.children c = none) {rest qp : NName} {idx : NIndex}
    (g : Nat)
    (habs : ∀ i, i < (c :: rest : NName).length →
      nodeAt nd ((c :: rest).take (i + 1)) = none →
      (qp ++ (c :: rest).take (i + 1)) ∉ idx.map Prod.fst) :
    ∀ i, i < rest.length →
      nodeAt (NamedNode.mk g (nd.name ++ [c]) none
        ([] : List (Comp × NamedNode V))) (rest.take (i + 1)) = none →
      ((qp ++ [c]) ++ rest.take (i + 1)) ∉
        (((qp ++ [c], g) :: idx : NIndex).map Prod.fst) := by
  intro i hi _
  have h1 : nodeAt nd ((c :: rest).take (i + 2)) = none := by
    rw [List.take_succ_cons, nodeAt_cons, hf]
    rfl
  have h2 := habs (i + 1) (by simp; omega) h1
  rw [List.take_succ_cons] at h2
  simp only [List.map_cons, List.mem_cons]
  push_neg
  constructor
  · intro heq
    have := congrArg List.length heq
    have hlen : (rest.take (i + 1)).length = i + 1 := by
      rw [List.length_take]
      omega
    simp [hlen] at this
  · simpa [List.append_assoc] using h2

theorem idxEmplace_absent {idx : NIndex} {k : NName} (g : Nat)
    (h : k ∉ idx.map Prod.fst) : idxEmplace idx k g = (k, g) :: idx := by
  rw [idxEmplace, idxFind_eq_none_of_not_mem h]

theorem insertGo_count (v : Option V) (rest : NName) :
    ∀ (qp : NName) (nd : NamedNode V) (idx : NIndex) (g : Nat),
    nd.wfB = true →
    (∀ i, i < rest.length → nodeAt nd (rest.take (i + 1)) = none →
      (qp ++ rest.take (i + 1)) ∉ idx.map Prod.fst) →
    countNodes (NamedTree.insertGo v rest qp nd idx g).1 + idx.length =
      countNodes nd + (NamedTree.insertGo v rest qp nd idx g).2.1.length := by
  induction rest with
  | nil =>
    intro qp nd idx g hw habs
    rw [insertGo_nil, countNodes_eq, countNodes_eq,
      NamedNode.children_setValue]
  | cons c rest ih =>
    intro qp nd idx g hw habs
    obtain ⟨hs, hcw⟩ := wfB_children hw
    cases hf : childFind nd.children c with
    | some child =>
      have hchild := wfB_of_childFind hcw hf
      have habs' := habs_found hf habs
      have hih := ih (qp ++ [c]) child idx g hchild habs'
      rw [insertGo_found_fst hf, insertGo_found_idx hf]
      rw [countNodes_eq nd, countNodes_eq, NamedNode.children_withChildren,
        countNodesList_eq_sum, countNodesList_eq_sum]
      have hsum := sumf_setChild_found countNodes
        (NamedTree.insertGo v rest (qp ++ [c]) child idx g).1 hs hf
      omega
    | none =>
      have hkey : (qp ++ [c]) ∉ idx.map Prod.fst := by
        have h1 : nodeAt nd ((c :: rest).take 1) = none := by
          simp only [List.take_succ_cons, List.take_zero, nodeAt_cons, hf]
          rfl
        simpa using habs 0 (by simp) h1
      rw [insertGo_new_fst hf, insertGo_new_idx hf, idxEmplace_absent g hkey]
      have habs' := habs_new hf g habs
      have hih := ih (qp ++ [c]) (NamedNode.mk g (nd.name ++ [c]) none [])
        ((qp ++ [c], g) :: idx) (g + 1) (wfB_leaf _ _ _) habs'
      rw [countNodes_eq nd, countNodes_eq, NamedNode.children_withChildren,
        countNodesList_eq_sum, countNodesList_eq_sum]
      have hsum := sumf_setChild_none countNodes
        (NamedTree.insertGo v rest (qp ++ [c])
          (NamedNode.mk g (nd.name ++ [c]) none [])
          ((qp ++ [c], g) :: idx) (g + 1)).1 hf
      have hfcount : countNodes
          (NamedNode.mk g (nd.name ++ [c]) none
            ([] : List (Comp × NamedNode V))) = 1 := by
        rw [countNodes_eq]
        rfl
      rw [hfcount] at hih
      simp only [List.length_cons] at hih
      omega

theorem insertGo_popCount (v : Option V) (rest : NName) :
    ∀ (qp : NName) (nd : NamedNode V) (idx : NIndex) (g : Nat),
    nd.wfB = true →
    popCount (NamedTree.insertGo v rest qp nd idx g).1 +
        (if ((nodeAt nd rest).bind NamedNode.value).isSome then 1 else 0) =
      popCount nd + (if v.isSome then 1 else 0) := by
  induction rest with
  | nil =>
    intro qp nd idx g hw
    rw [insertGo_nil, popCount_eq, popCount_eq,
      NamedNode.children_setValue, NamedNode.value_setValue]
    simp only [nodeAt_nil, Option.some_bind]
    omega
  | cons c rest ih =>
    intro qp nd idx g hw
    obtain ⟨hs, hcw⟩ := wfB_children hw
    cases hf : childFind nd.children c with
    | some child =>
      have hchild := wfB_of_childFind hcw hf
      have hih := ih (qp ++ [c]) child idx g hchild
      rw [insertGo_cons_found hf]
      rw [popCount_eq nd, popCount_eq, NamedNode.children_withChildren,
        NamedNode.value_withChildren, popCountList_eq_sum,
        popCountList_eq_sum, nodeAt_cons, hf]
      simp only [Option.some_bind]
      have hsum := sumf_setChild_found popCount
        (NamedTree.insertGo v rest (qp ++ [c]) child idx g).1 hs hf
      omega
    | none =>
      rw [insertGo_cons_new hf]
      have hih := ih (qp ++ [c]) (NamedNode.mk g (nd.name ++ [c]) none [])
        (idxEmplace idx (qp ++ [c]) g) (g + 1) (wfB_leaf _ _ _)
      have hX : ((nodeAt (NamedNode.mk g (nd.name ++ [c]) none
          ([] : List (Comp × NamedNode V))) rest).bind
          NamedNode.value) = none := by
        cases rest with
        | nil => simp
        | cons c2 r2 =>
          rw [nodeAt_cons]
          simp [childFind]
      rw [hX] at hih
      have hfpop : popCount (NamedNode.mk g (nd.name ++ [c]) none
          ([] : List (Comp × NamedNode V))) = 0 := by
        rw [popCount_eq]
        rfl
      rw [hfpop] at hih
      rw [popCount_eq nd, popCount_eq, NamedNode.children_withChildren,
        NamedNode.value_withChildren, popCountList_eq_sum,
        popCountList_eq_sum, nodeAt_cons, hf]
      simp only [Option.none_bind]
      have hsum := sumf_setChild_none popCount
        (NamedTree.insertGo v rest (qp ++ [c])
          (NamedNode.mk g (nd.name ++ [c]) none [])
          (idxEmplace idx (qp ++ [c]) g) (g + 1)).1 hf
      simp only [Option.isSome_none, Bool.false_eq_true, if_false] at hih ⊢
      omega

theorem insertGo_idx_superset (v : Option V) (rest : NName) :
    ∀ (qp : NName) (nd : NamedNode V) (idx : NIndex) (g : Nat)
    (e : NName × Nat), e ∈ idx →
    e ∈ (NamedTree.insertGo v rest qp nd idx g).2.1 := by
  induction rest with
  | nil =>
    intro qp nd idx g e he
    rw [insertGo_nil]
    exact he
  | cons c rest ih =>
    intro qp nd idx g e he
    cases hf : childFind nd.children c with
    | some child =>
      rw [insertGo_cons_found hf]
      exact ih _ child idx g e he
    | none =>
      rw [insertGo_cons_new hf]
      refine ih _ _ _ _ e ?_
      rw [idxEmplace]
      cases idxFind idx (qp ++ [c]) with
      | none => exact List.mem_cons_of_mem _ he
      | some _ => exact he

theorem insertGo_idx_entries (v : Option V) (rest : NName) :
    ∀ (qp : NName) (nd : NamedNode V) (idx : NIndex) (g : Nat),
    (∀ q m, nodeAt nd q = some m → m.name = qp ++ q) →
    ∀ e ∈ (NamedTree.insertGo v rest qp nd idx g).2.1, e ∈ idx ∨
      ∃ r m', e.1 = qp ++ r ∧
        nodeAt (NamedTree.insertGo v rest qp nd idx g).1 r = some m' ∧
        m'.gen = e.2 ∧ m'.name = e.1 := by
  induction rest with
  | nil =>
    intro qp nd idx g hnames e he
    rw [insertGo_nil] at he
    exact Or.inl he
  | cons c rest ih =>
    intro qp nd idx g hnames e he
    cases hf : childFind nd.children c with
    | some child =>
      rw [insertGo_found_idx hf] at he
      have hnames' : ∀ q m, nodeAt child q = some m →
          m.name = (qp ++ [c]) ++ q := by
        intro q m hm
        have h0 := hnames (c :: q) m (by rw [nodeAt_cons, hf]; simpa using hm)
        simpa [List.append_assoc] using h0
      rcases ih (qp ++ [c]) child idx g hnames' e he with
        h | ⟨r, m', h1, h2, h3, h4⟩
      · exact Or.inl h
      · refine Or.inr ⟨c :: r, m',
          by simpa [List.append_assoc] using h1, ?_, h3, h4⟩
        rw [insertGo_found_fst hf, nodeAt_cons,
          NamedNode.children_withChildren, childFind_setChild_self]
        simpa using h2
    | none =>
      rw [insertGo_new_idx hf] at he
      have hroot : nd.name = qp := by simpa using hnames [] nd rfl
      have hnames' : ∀ q m,
          nodeAt (NamedNode.mk g (nd.name ++ [c]) none
            ([] : List (Comp × NamedNode V))) q = some m →
          m.name = (qp ++ [c]) ++ q := by
        intro q m hm
        cases q with
        | nil =>
          simp at hm
          subst hm
          simp [hroot]
        | cons c2 q2 =>
          rw [nodeAt_cons] at hm
          simp [childFind] at hm
      rcases ih (qp ++ [c]) (NamedNode.mk g (nd.name ++ [c]) none [])
          (idxEmplace idx (qp ++ [c]) g) (g + 1) hnames' e he with
        h | ⟨r, m', h1, h2, h3, h4⟩
      · rw [idxEmplace] at h
        cases hfind : idxFind idx (qp ++ [c]) with
        | some gold =>
          rw [hfind] at h
          exact Or.inl h
        | none =>
          rw [hfind] at h
          rcases List.mem_cons.mp h with rfl | h'
          · right
            obtain ⟨m', hm', hst, _⟩ := insertGo_nodeAt_old v rest
              (qp ++ [c]) (NamedNode.mk g (nd.name ++ [c]) none [])
              (idxEmplace idx (qp ++ [c]) g) (g + 1) []
              (NamedNode.mk g (nd.name ++ [c]) none []) (by simp)
            refine ⟨[c], m', by simp, ?_, ?_, ?_⟩
            · rw [insertGo_new_fst hf, nodeAt_cons,
                NamedNode.children_withChildren, childFind_setChild_self]
              simpa using hm'
            · have h5 := congrArg Prod.fst hst
              simpa [stamp] using h5
            · have h5 := congrArg Prod.snd hst
              simp [stamp] at h5
              rw [h5, hroot]
          · exact Or.inl h'
      · refine Or.inr ⟨c :: r, m',
          by simpa [List.append_assoc] using h1, ?_, h3, h4⟩
        rw [insertGo_new_fst hf, nodeAt_cons,
          NamedNode.children_withChildren, childFind_setChild_self]
        simpa using h2

theorem habs_head {nd : NamedNode V} {c : Comp}
    (hf : childFind nd.children c = none) {rest qp : NName} {idx : NIndex}
    (habs : ∀ i, i < (c :: rest : NName).length →
      nodeAt nd ((c :: rest).take (i + 1)) = none →
      (qp ++ (c :: rest).take (i + 1)) ∉ idx.map Prod.fst) :
    (qp ++ [c]) ∉ idx.map Prod.fst := by
  have h1 : nodeAt nd ((c :: rest).take 1) = none := by
    simp only [List.take_succ_cons, List.take_zero, nodeAt_cons, hf]
    rfl
  simpa using habs 0 (by simp) h1

theorem key_mem_idxEmplace (idx : NIndex) (k : NName) (g : Nat) :
    k ∈ ((idxEmplace idx k g).map Prod.fst) := by
  rw [idxEmplace]
  cases hfind : idxFind idx k with
  | some g' => exact List.mem_map_of_mem Prod.fst (idxFind_mem hfind)
  | none => simp

theorem insertGo_keys_superset (v : Option V) (rest qp : NName)
    (nd : NamedNode V) (idx : NIndex) (g : Nat) {k : NName}
    (h : k ∈ idx.map Prod.fst) :
    k ∈ ((NamedTree.insertGo v rest qp nd idx g).2.1.map Prod.fst) := by
  rcases List.mem_map.mp h with ⟨e, he, rfl⟩
  exact List.mem_map_of_mem Prod.fst
    (insertGo_idx_superset v rest qp nd idx g e he)

theorem insertGo_idx_nodup (v : Option V) (rest : NName) :
    ∀ (qp : NName) (nd : NamedNode V) (idx : NIndex) (g : Nat),
    (∀ i, i < rest.length → nodeAt nd (rest.take (i + 1)) = none →
      (qp ++ rest.take (i + 1)) ∉ idx.map Prod.fst) →
    (idx.map Prod.fst).Nodup →
    ((NamedTree.insertGo v rest qp nd idx g).2.1.map Prod.fst).Nodup := by
  induction rest with
  | nil =>
    intro qp nd idx g _ hnd
    rw [insertGo_nil]
    exact hnd
  | cons c rest ih =>
    intro qp nd idx g habs hnd
    cases hf : childFind nd.children c with
    | some child =>
      rw [insertGo_found_idx hf]
      exact ih _ child idx g (habs_found hf habs) hnd
    | none =>
      rw [insertGo_new_idx hf, idxEmplace_absent g (habs_head hf habs)]
      refine ih _ _ _ _ (habs_new hf g habs) ?_
      simp only [List.map_cons, List.nodup_cons]
      exact ⟨habs_head hf habs, hnd⟩

theorem insertGo_complete (v : Option V) (rest : NName) :
    ∀ (qp : NName) (nd : NamedNode V) (idx : NIndex) (g : Nat) (i : Nat),
    i ≤ rest.length → nodeAt nd (rest.take i) = none →
    (qp ++ rest.take i) ∈
      ((NamedTree.insertGo v rest qp nd idx g).2.1.map Prod.fst) := by
  induction rest with
  | nil =>
    intro qp nd idx g i hi hnone
    have h0 : i = 0 := by simpa using hi
    subst h0
    simp at hnone
  | cons c rest ih =>
    intro qp nd idx g i hi hnone
    cases i with
    | zero => simp at hnone
    | succ i' =>
      rw [List.take_succ_cons] at hnone ⊢
      simp only [List.length_cons] at hi
      cases hf : childFind nd.children c with
      | some child =>
        rw [insertGo_found_idx hf]
        rw [nodeAt_cons, hf] at hnone
        simp only [Option.some_bind] at hnone
        have h1 := ih (qp ++ [c]) child idx g i' (by omega) hnone
        simpa [List.append_assoc] using h1
      | none =>
        rw [insertGo_new_idx hf]
        cases i' with
        | zero =>
          have h1 : (qp ++ [c]) ∈
              ((idxEmplace idx (qp ++ [c]) g).map Prod.fst) :=
            key_mem_idxEmplace idx (qp ++ [c]) g
          have h2 := insertGo_keys_superset v rest (qp ++ [c])
            (NamedNode.mk g (nd.name ++ [c]) none [])
            (idxEmplace idx (qp ++ [c]) g) (g + 1) h1
          simpa using h2
        | succ i'' =>
          have hne : rest.take (i'' + 1) ≠ [] := take_ne_nil (by omega)
          have hnone' : nodeAt (NamedNode.mk g (nd.name ++ [c]) none
              ([] : List (Comp × NamedNode V))) (rest.take (i'' + 1)) =
              none := by
            cases htk : rest.take (i'' + 1) with
            | nil => exact absurd htk hne
            | cons a b =>
              rw [nodeAt_cons]
              simp [childFind]
          have h1 := ih (qp ++ [c]) (NamedNode.mk g (nd.name ++ [c]) none [])
            (idxEmplace idx (qp ++ [c]) g) (g + 1) (i'' + 1) (by omega)
            hnone'
          simpa [List.append_assoc] using h1

end InsertLemmas

section RemoveLemmas

variable {V : Type}

theorem lastComp_append (l : NName) (a : Comp) :
    NName.lastComp (l ++ [a]) = a := by
  rw [NName.lastComp]
  exact List.getLastD_concat 0 a l

theorem key_not_mem_idxEraseKey (idx : NIndex) (k : NName) :
    k ∉ ((idxEraseKey idx k).map Prod.fst) := by
  intro h
  rcases List.mem_map.mp h with ⟨e, he, rfl⟩
  exact (mem_idxEraseKey.mp he).2 rfl

theorem not_mem_keys_of_sublist {idx1 idx2 : NIndex} {k : NName}
    (hs : List.Sublist idx1 idx2) (h : k ∉ idx2.map Prod.fst) :
    k ∉ idx1.map Prod.fst := by
  intro hmem
  rcases List.mem_map.mp hmem with ⟨e, he, rfl⟩
  exact h (List.mem_map_of_mem Prod.fst (List.Sublist.mem he hs))

theorem keys_nodup_of_sublist {idx1 idx2 : NIndex}
    (hs : List.Sublist idx1 idx2) (h : (idx2.map Prod.fst).Nodup) :
    (idx1.map Prod.fst).Nodup :=
  List.Pairwise.sublist (List.Sublist.map Prod.fst hs) h

theorem removeGo_nil_valid {nd : NamedNode V} {isRoot : Bool}
    (h : (nd.setValue none).isValid isRoot = true) (idx : NIndex) :
    NamedTree.removeGo isRoot nd [] idx = (some (nd.setValue none), idx) := by
  rw [NamedTree.removeGo, if_pos h]

theorem removeGo_nil_invalid {nd : NamedNode V} {isRoot : Bool}
    (h : (nd.setValue none).isValid isRoot = false) (idx : NIndex) :
    NamedTree.removeGo isRoot nd [] idx =
      (none, idxEraseKey idx nd.name) := by
  rw [NamedTree.removeGo, if_neg (by rw [h]; exact fun hh => nomatch hh)]
  rfl

theorem removeGo_cons_miss {nd : NamedNode V} {c : Comp}
    (hf : childFind nd.children c = none) (isRoot : Bool) (rest : NName)
    (idx : NIndex) :
    NamedTree.removeGo isRoot nd (c :: rest) idx = (some nd, idx) := by
  rw [NamedTree.removeGo, hf]

theorem removeGo_cons_step {nd child : NamedNode V} {c : Comp}
    (hf : childFind nd.children c = some child) (isRoot : Bool)
    (rest : NName) (idx : NIndex) :
    NamedTree.removeGo isRoot nd (c :: rest) idx =
      (match NamedTree.removeGo false child rest idx with
        | (some child', idx') =>
          (some (nd.withChildren (setChild nd.children c child')), idx')
        | (none, idx') =>
          if (nd.withChildren
              (eraseChild nd.children child.name.lastComp)).isValid isRoot
          then (some (nd.withChildren
              (eraseChild nd.children child.name.lastComp)), idx')
          else (none, idxEraseKey idx'
              (nd.withChildren
                (eraseChild nd.children child.name.lastComp)).name)) := by
  rw [NamedTree.removeGo, hf]

theorem removeGo_cons_some {nd child child' : NamedNode V} {c : Comp}
    {rest : NName} {idx idx' : NIndex}
    (hf : childFind nd.children c = some child)
    (hrec : NamedTree.removeGo false child rest idx = (some child', idx'))
    (isRoot : Bool) :
    NamedTree.removeGo isRoot nd (c :: rest) idx =
      (some (nd.withChildren (setChild nd.children c child')), idx') := by
  rw [removeGo_cons_step hf, hrec]

theorem removeGo_cons_pruned_valid {nd child : NamedNode V} {c : Comp}
    {rest : NName} {idx idx' : NIndex}
    (hf : childFind nd.children c = some child)
    (hrec : NamedTree.removeGo false child rest idx = (none, idx'))
    {isRoot : Bool}
    (hv : (nd.withChildren
      (eraseChild nd.children child.name.lastComp)).isValid isRoot = true) :
    NamedTree.removeGo isRoot nd (c :: rest) idx =
      (some (nd.withChildren
        (eraseChild nd.children child.name.lastComp)), idx') := by
  rw [removeGo_cons_step hf, hrec]
  simp [hv]

theorem removeGo_cons_pruned_invalid {nd child : NamedNode V} {c : Comp}
    {rest : NName} {idx idx' : NIndex}
    (hf : childFind nd.children c = some child)
    (hrec : NamedTree.removeGo false child rest idx = (none, idx'))
    {isRoot : Bool}
    (hv : (nd.withChildren
      (eraseChild nd.children child.name.lastComp)).isValid isRoot =
      false) :
    NamedTree.removeGo isRoot nd (c :: rest) idx =
      (none, idxEraseKey idx' nd.name) := by
  rw [removeGo_cons_step hf, hrec]
  simp [hv]

theorem removeGo_isRoot_some (nd : NamedNode V) (path : NName)
    (idx : NIndex) :
    ∃ nd1 idx', NamedTree.removeGo true nd path idx = (some nd1, idx') := by
  cases path with
  | nil =>
    have hv : (nd.setValue none).isValid true = true := by
      simp [NamedNode.isValid]
    exact ⟨_, _, removeGo_nil_valid hv idx⟩
  | cons c rest =>
    cases hf : childFind nd.children c with
    | none => exact ⟨_, _, removeGo_cons_miss hf true rest idx⟩
    | some child =>
      rcases hrec : NamedTree.removeGo false child rest idx with ⟨res, idx'⟩
      cases res with
      | some child' => exact ⟨_, _, removeGo_cons_some hf hrec true⟩
      | none =>
        have hv : (nd.withChildren
            (eraseChild nd.children child.name.lastComp)).isValid true =
            true := by
          simp [NamedNode.isValid]
        exact ⟨_, _, removeGo_cons_pruned_valid hf hrec hv⟩

theorem removeGo_wfB (path : NName) :
    ∀ (isRoot : Bool) (nd : NamedNode V) (idx : NIndex)
    (nd1 : NamedNode V) (idx' : NIndex), nd.wfB = true →
    NamedTree.removeGo isRoot nd path idx = (some nd1, idx') →
    nd1.wfB = true := by
  induction path with
  | nil =>
    intro isRoot nd idx nd1 idx' hw h
    cases hv : (nd.setValue none).isValid isRoot with
    | true =>
      rw [removeGo_nil_valid hv] at h
      injection h with h1 h2
      injection h1 with h1
      rw [← h1, wfB_setValue]
      exact hw
    | false =>
      rw [removeGo_nil_invalid hv] at h
      injection h with h1 h2
      exact absurd h1 (by simp)
  | cons c rest ih =>
    intro isRoot nd idx nd1 idx' hw h
    obtain ⟨hs, hcw⟩ := wfB_children hw
    cases hf : childFind nd.children c with
    | none =>
      rw [removeGo_cons_miss hf] at h
      injection h with h1 h2
      injection h1 with h1
      rw [← h1]
      exact hw
    | some child =>
      have hchild := wfB_of_childFind hcw hf
      rcases hrec : NamedTree.removeGo false child rest idx with ⟨res, idx''⟩
      cases res with
      | some child' =>
        rw [removeGo_cons_some hf hrec] at h
        injection h with h1 h2
        injection h1 with h1
        rw [← h1, NamedNode.wfB_def, NamedNode.children_withChildren,
          Bool.and_eq_true]
        have hcw' := ih false child idx child' idx'' hchild hrec
        exact ⟨keysSortedB_setChild _ hs, childrenWfB_setChild hcw hcw'⟩
      | none =>
        cases hv : (nd.withChildren
            (eraseChild nd.children child.name.lastComp)).isValid isRoot with
        | true =>
          rw [removeGo_cons_pruned_valid hf hrec hv] at h
          injection h with h1 h2
          injection h1 with h1
          rw [← h1, NamedNode.wfB_def, NamedNode.children_withChildren,
            Bool.and_eq_true]
          exact ⟨keysSortedB_eraseChild hs, childrenWfB_eraseChild hcw⟩
        | false =>
          rw [removeGo_cons_pruned_invalid hf hrec hv] at h
          injection h with h1 h2
          exact absurd h1 (by simp)

theorem removeGo_idx_sublist (path : NName) :
    ∀ (isRoot : Bool) (nd : NamedNode V) (idx : NIndex),
    List.Sublist (NamedTree.removeGo isRoot nd path idx).2 idx := by
  induction path with
  | nil =>
    intro isRoot nd idx
    cases hv : (nd.setValue none).isValid isRoot with
    | true =>
      rw [removeGo_nil_valid hv]
    | false =>
      rw [removeGo_nil_invalid hv]
      exact idxEraseKey_sublist idx nd.name
  | cons c rest ih =>
    intro isRoot nd idx
    cases hf : childFind nd.children c with
    | none =>
      rw [removeGo_cons_miss hf]
    | some child =>
      rcases hrec : NamedTree.removeGo false child rest idx with ⟨res, idx''⟩
      have hsub : List.Sublist idx'' idx := by
        have h0 := ih false child idx
        rw [hrec] at h0
        exact h0
      cases res with
      | some child' =>
        rw [removeGo_cons_some hf hrec]
        exact hsub
      | none =>
        cases hv : (nd.withChildren
            (eraseChild nd.children child.name.lastComp)).isValid isRoot with
        | true =>
          rw [removeGo_cons_pruned_valid hf hrec hv]
          exact hsub
        | false =>
          rw [removeGo_cons_pruned_invalid hf hrec hv]
          exact List.Sublist.trans (idxEraseKey_sublist idx'' nd.name) hsub

theorem isValid_false {nd : NamedNode V} {isRoot : Bool}
    (h : nd.isValid isRoot = false) :
    nd.children = [] ∧ nd.value = none ∧ isRoot = false := by
  rw [NamedNode.isValid] at h
  simp only [NamedNode.hasChildren, NamedNode.hasValue,
    Bool.or_eq_false_iff, Bool.not_eq_false'] at h
  obtain ⟨⟨h1, h2⟩, h3⟩ := h
  refine ⟨?_, ?_, h3⟩
  · exact List.isEmpty_iff.mp h1
  · exact Option.not_isSome_iff_eq_none.mp (by rw [h2]; exact fun hh => nomatch hh)

theorem removeGo_nodeAt (path : NName) :
    ∀ (isRoot : Bool) (qp : NName) (nd : NamedNode V) (idx : NIndex),
    nd.wfB = true →
    (∀ q m, nodeAt nd q = some m → m.name = qp ++ q) →
    (nodeAt nd path).isSome →
    (∀ nd1 idx', NamedTree.removeGo isRoot nd path idx = (some nd1, idx') →
      ∀ q m, nodeAt nd q = some m →
        (∃ m', nodeAt nd1 q = some m' ∧ stamp m' = stamp m ∧
          m'.value = (if q = path then none else m.value)) ∨
        (nodeAt nd1 q = none ∧ (qp ++ q) ∉ idx'.map Prod.fst ∧
          (m.value = none ∨ q = path))) ∧
    (∀ idx', NamedTree.removeGo isRoot nd path idx = (none, idx') →
      ∀ q m, nodeAt nd q = some m →
        (qp ++ q) ∉ idx'.map Prod.fst ∧ (m.value = none ∨ q = path)) := by
  induction path with
  | nil =>
    intro isRoot qp nd idx hw hnames _
    cases hv : (nd.setValue none).isValid isRoot with
    | true =>
      constructor
      · intro nd1 idx' hrun q m hq
        rw [removeGo_nil_valid hv] at hrun
        injection hrun with h1 h2
        injection h1 with h1
        subst h2
        left
        cases q with
        | nil =>
          simp only [nodeAt_nil, Option.some.injEq] at hq
          subst hq
          exact ⟨nd1, rfl, by rw [← h1]; simp [stamp],
            by rw [← h1]; simp⟩
        | cons c q' =>
          refine ⟨m, ?_, rfl, by simp⟩
          rw [← h1, nodeAt_cons, NamedNode.children_setValue, ← nodeAt_cons]
          exact hq
      · intro idx' hrun
        rw [removeGo_nil_valid hv] at hrun
        injection hrun with h1 h2
        exact absurd h1 (by simp)
    | false =>
      constructor
      · intro nd1 idx' hrun
        rw [removeGo_nil_invalid hv] at hrun
        injection hrun with h1 h2
        exact absurd h1 (by simp)
      · intro idx' hrun q m hq
        rw [removeGo_nil_invalid hv] at hrun
        injection hrun with h1 h2
        subst h2
        obtain ⟨hch, _, _⟩ := isValid_false hv
        rw [NamedNode.children_setValue] at hch
        have hqp : nd.name = qp := by simpa using hnames [] nd rfl
        cases q with
        | nil =>
          simp only [nodeAt_nil, Option.some.injEq] at hq
          subst hq
          refine ⟨?_, Or.inr rfl⟩
          rw [← hqp]
          simpa using key_not_mem_idxEraseKey idx nd.name
        | cons c q' =>
          rw [nodeAt_cons, hch] at hq
          simp [childFind] at hq
  | cons c rest ih =>
    intro isRoot qp nd idx hw hnames htarget
    obtain ⟨hs, hcw⟩ := wfB_children hw
    rw [nodeAt_cons] at htarget
    cases hf : childFind nd.children c with
    | none => simp [hf] at htarget
    | some child =>
      rw [hf] at htarget
      simp only [Option.some_bind] at htarget
      have hchildwf := wfB_of_childFind hcw hf
      have hchildnames : ∀ q m, nodeAt child q = some m →
          m.name = (qp ++ [c]) ++ q := by
        intro q m hm
        have h0 := hnames (c :: q) m (by rw [nodeAt_cons, hf]; simpa using hm)
        simpa [List.append_assoc] using h0
      have hchildname : child.name = qp ++ [c] := by
        simpa using hchildnames [] child rfl
      have hlast : child.name.lastComp = c := by
        rw [hchildname]
        exact lastComp_append qp c
      obtain ⟨IHsome, IHnone⟩ := ih false (qp ++ [c]) child idx hchildwf
        hchildnames htarget
      rcases hrec : NamedTree.removeGo false child rest idx with ⟨res, idx''⟩
      cases res with
      | some child' =>
        constructor
        · intro nd1 idx' hrun q m hq
          rw [removeGo_cons_some hf hrec] at hrun
          injection hrun with h1 h2
          injection h1 with h1
          subst h2
          cases q with
          | nil =>
            simp only [nodeAt_nil, Option.some.injEq] at hq
            subst hq
            left
            exact ⟨nd1, rfl, by rw [← h1]; simp [stamp],
              by rw [← h1]; simp⟩
          | cons c' q' =>
            by_cases hcc : c' = c
            · subst hcc
              rw [nodeAt_cons, hf] at hq
              simp only [Option.some_bind] at hq
              rcases IHsome child' idx'' hrec q' m hq with
                ⟨m', hm', hst, hval⟩ | ⟨hnone, hkey, hvz⟩
              · left
                refine ⟨m', ?_, hst, ?_⟩
                · rw [← h1, nodeAt_cons, NamedNode.children_withChildren,
                    childFind_setChild_self]
                  simpa using hm'
                · rw [hval]
                  simp only [List.cons.injEq, true_and]
              · right
                refine ⟨?_, ?_, ?_⟩
                · rw [← h1, nodeAt_cons, NamedNode.children_withChildren,
                    childFind_setChild_self]
                  simpa using hnone
                · simpa [List.append_assoc] using hkey
                · rcases hvz with hvz | hvz
                  · exact Or.inl hvz
                  · exact Or.inr (by rw [hvz])
            · left
              refine ⟨m, ?_, rfl, by simp [hcc]⟩
              rw [← h1, nodeAt_cons, NamedNode.children_withChildren,
                childFind_setChild_other _ _ _ _ hcc, ← nodeAt_cons]
              exact hq
        · intro idx' hrun
          rw [removeGo_cons_some hf hrec] at hrun
          injection hrun with h1 h2
          exact absurd h1 (by simp)
      | none =>
        cases hv : (nd.withChildren
            (eraseChild nd.children child.name.lastComp)).isValid isRoot with
        | true =>
          constructor
          · intro nd1 idx' hrun q m hq
            rw [removeGo_cons_pruned_valid hf hrec hv] at hrun
            injection hrun with h1 h2
            injection h1 with h1
            subst h2
            rw [hlast] at h1
            cases q with
            | nil =>
              simp only [nodeAt_nil, Option.some.injEq] at hq
              subst hq
              left
              exact ⟨nd1, rfl, by rw [← h1]; simp [stamp],
                by rw [← h1]; simp⟩
            | cons c' q' =>
              by_cases hcc : c' = c
              · subst hcc
                rw [nodeAt_cons, hf] at hq
                simp only [Option.some_bind] at hq
                obtain ⟨hkey, hvz⟩ := IHnone idx'' hrec q' m hq
                right
                refine ⟨?_, ?_, ?_⟩
                · rw [← h1, nodeAt_cons, NamedNode.children_withChildren,
                    childFind_eraseChild_self hs]
                  rfl
                · simpa [List.append_assoc] using hkey
                · rcases hvz with hvz | hvz
                  · exact Or.inl hvz
                  · exact Or.inr (by rw [hvz])
              · left
                refine ⟨m, ?_, rfl, by simp [hcc]⟩
                rw [← h1, nodeAt_cons, NamedNode.children_withChildren,
                  childFind_eraseChild_other _ _ _ hcc, ← nodeAt_cons]
                exact hq
          · intro idx' hrun
            rw [removeGo_cons_pruned_valid hf hrec hv] at hrun
            injection hrun with h1 h2
            exact absurd h1 (by simp)
        | false =>
          constructor
          · intro nd1 idx' hrun
            rw [removeGo_cons_pruned_invalid hf hrec hv] at hrun
            injection hrun with h1 h2
            exact absurd h1 (by simp)
          · intro idx' hrun q m hq
            rw [removeGo_cons_pruned_invalid hf hrec hv] at hrun
            injection hrun with h1 h2
            subst h2
            obtain ⟨hch, hvnone, _⟩ := isValid_false hv
            rw [NamedNode.children_withChildren] at hch
            rw [NamedNode.value_withChildren] at hvnone
            rw [hlast] at hch
            have hqp : nd.name = qp := by simpa using hnames [] nd rfl
            cases q with
            | nil =>
              simp only [nodeAt_nil, Option.some.injEq] at hq
              subst hq
              refine ⟨?_, Or.inl hvnone⟩
              rw [← hqp]
              simpa using key_not_mem_idxEraseKey idx'' nd.name
            | cons c' q' =>
              by_cases hcc : c' = c
              · subst hcc
                rw [nodeAt_cons, hf] at hq
                simp only [Option.some_bind] at hq
                obtain ⟨hkey, hvz⟩ := IHnone idx'' hrec q' m hq
                refine ⟨?_, ?_⟩
                · have h3 := not_mem_keys_of_sublist
                    (idxEraseKey_sublist idx'' nd.name) hkey
                  simpa [List.append_assoc] using h3
                · rcases hvz with hvz | hvz
                  · exact Or.inl hvz
                  · exact Or.inr (by rw [hvz])
              · have h4 : childFind nd.children c' = none := by
                  have h5 := childFind_eraseChild_other nd.children c c' hcc
                  rw [hch] at h5
                  simpa [childFind] using h5.symm
                rw [nodeAt_cons, h4] at hq
                simp at hq

theorem removeGo_erased (path : NName) :
    ∀ (isRoot : Bool) (qp : NName) (nd : NamedNode V) (idx : NIndex),
    nd.wfB = true →
    (∀ q m, nodeAt nd q = some m → m.name = qp ++ q) →
    (nodeAt nd path).isSome →
    ∀ e ∈ idx, e ∉ (NamedTree.removeGo isRoot nd path idx).2 →
      ∃ q, (nodeAt nd q).isSome ∧ e.1 = qp ++ q ∧
        ∀ nd1, (NamedTree.removeGo isRoot nd path idx).1 = some nd1 →
          nodeAt nd1 q = none := by
  induction path with
  | nil =>
    intro isRoot qp nd idx hw hnames _ e he hne
    cases hv : (nd.setValue none).isValid isRoot with
    | true =>
      rw [removeGo_nil_valid hv] at hne
      exact absurd he hne
    | false =>
      rw [removeGo_nil_invalid hv] at hne
      simp only at hne
      have hqp : nd.name = qp := by simpa using hnames [] nd rfl
      have h1 : e.1 = nd.name := by
        by_contra h2
        exact hne (mem_idxEraseKey.mpr ⟨he, h2⟩)
      refine ⟨[], by simp, by simpa [hqp] using h1, ?_⟩
      intro nd1 h3
      rw [removeGo_nil_invalid hv] at h3
      simp at h3
  | cons c rest ih =>
    intro isRoot qp nd idx hw hnames htarget e he hne
    obtain ⟨hs, hcw⟩ := wfB_children hw
    rw [nodeAt_cons] at htarget
    cases hf : childFind nd.children c with
    | none => simp [hf] at htarget
    | some child =>
      rw [hf] at htarget
      simp only [Option.some_bind] at htarget
      have hchildwf := wfB_of_childFind hcw hf
      have hchildnames : ∀ q m, nodeAt child q = some m →
          m.name = (qp ++ [c]) ++ q := by
        intro q m hm
        have h0 := hnames (c :: q) m (by rw [nodeAt_cons, hf]; simpa using hm)
        simpa [List.append_assoc] using h0
      have hlast : child.name.lastComp = c := by
        rw [show child.name = qp ++ [c] from by
          simpa using hchildnames [] child rfl]
        exact lastComp_append qp c
      have hchild := ih false (qp ++ [c]) child idx hchildwf hchildnames
        htarget e he
      rcases hrec : NamedTree.removeGo false child rest idx with ⟨res, idx''⟩
      cases res with
      | some child' =>
        rw [removeGo_cons_some hf hrec] at hne
        simp only at hne
        obtain ⟨q', hsome', hkey', hcl⟩ := hchild (by rw [hrec]; exact hne)
        refine ⟨c :: q', ?_, by simpa [List.append_assoc] using hkey', ?_⟩
        · rw [nodeAt_cons, hf]
          simpa using hsome'
        · intro nd1 h3
          rw [removeGo_cons_some hf hrec] at h3
          simp only [Option.some.injEq] at h3
          subst h3
          rw [nodeAt_cons, NamedNode.children_withChildren,
            childFind_setChild_self]
          have h4 := hcl child' (by rw [hrec])
          simpa using h4
      | none =>
        cases hv : (nd.withChildren
            (eraseChild nd.children child.name.lastComp)).isValid isRoot with
        | true =>
          rw [removeGo_cons_pruned_valid hf hrec hv] at hne
          simp only at hne
          obtain ⟨q', hsome', hkey', _⟩ := hchild (by rw [hrec]; exact hne)
          refine ⟨c :: q', ?_, by simpa [List.append_assoc] using hkey', ?_⟩
          · rw [nodeAt_cons, hf]
            simpa using hsome'
          · intro nd1 h3
            rw [removeGo_cons_pruned_valid hf hrec hv] at h3
            simp only [Option.some.injEq] at h3
            subst h3
            rw [nodeAt_cons, NamedNode.children_withChildren, hlast,
              childFind_eraseChild_self hs]
            rfl
        | false =>
          rw [removeGo_cons_pruned_invalid hf hrec hv] at hne
          simp only at hne
          by_cases hmem : e ∈ idx''
          · have h1 : e.1 = nd.name := by
              by_contra h2
              exact hne (mem_idxEraseKey.mpr ⟨hmem, h2⟩)
            have hqp : nd.name = qp := by simpa using hnames [] nd rfl
            refine ⟨[], by simp, by simpa [hqp] using h1, ?_⟩
            intro nd1 h3
            rw [removeGo_cons_pruned_invalid hf hrec hv] at h3
            simp at h3
          · obtain ⟨q', hsome', hkey', _⟩ := hchild (by rw [hrec]; exact hmem)
            refine ⟨c :: q', ?_, by simpa [List.append_assoc] using hkey', ?_⟩
            · rw [nodeAt_cons, hf]
              simpa using hsome'
            · intro nd1 h3
              rw [removeGo_cons_pruned_invalid hf hrec hv] at h3
              simp at h3

theorem removeGo_count (path : NName) :
    ∀ (isRoot : Bool) (qp : NName) (nd : NamedNode V) (idx : NIndex),
    nd.wfB = true →
    (∀ q m, nodeAt nd q = some m → m.name = qp ++ q) →
    (∀ q, (nodeAt nd q).isSome → (qp ++ q) ∈ idx.map Prod.fst) →
    (idx.map Prod.fst).Nodup →
    (nodeAt nd path).isSome →
    (∀ nd1 idx', NamedTree.removeGo isRoot nd path idx = (some nd1, idx') →
      countNodes nd1 + idx.length = countNodes nd + idx'.length) ∧
    (∀ idx', NamedTree.removeGo isRoot nd path idx = (none, idx') →
      idx.length = countNodes nd + idx'.length) := by
  induction path with
  | nil =>
    intro isRoot qp nd idx hw hnames hcomp hknd _
    cases hv : (nd.setValue none).isValid isRoot with
    | true =>
      constructor
      · intro nd1 idx' hrun
        rw [removeGo_nil_valid hv] at hrun
        injection hrun with h1 h2
        injection h1 with h1
        subst h2
        rw [← h1, countNodes_eq, countNodes_eq, NamedNode.children_setValue]
      · intro idx' hrun
        rw [removeGo_nil_valid hv] at hrun
        injection hrun with h1 h2
        exact absurd h1 (by simp)
    | false =>
      constructor
      · intro nd1 idx' hrun
        rw [removeGo_nil_invalid hv] at hrun
        injection hrun with h1 h2
        exact absurd h1 (by simp)
      · intro idx' hrun
        rw [removeGo_nil_invalid hv] at hrun
        injection hrun with h1 h2
        subst h2
        obtain ⟨hch, _, _⟩ := isValid_false hv
        rw [NamedNode.children_setValue] at hch
        have hqp : nd.name = qp := by simpa using hnames [] nd rfl
        have hone : countNodes nd = 1 := by
          rw [countNodes_eq, hch]
          rfl
        have hkey : nd.name ∈ idx.map Prod.fst := by
          rw [hqp]
          simpa using hcomp [] (by simp)
        have hlen := length_idxEraseKey_mem hknd hkey
        omega
  | cons c rest ih =>
    intro isRoot qp nd idx hw hnames hcomp hknd htarget
    obtain ⟨hs, hcw⟩ := wfB_children hw
    rw [nodeAt_cons] at htarget
    cases hf : childFind nd.children c with
    | none => simp [hf] at htarget
    | some child =>
      rw [hf] at htarget
      simp only [Option.some_bind] at htarget
      have hchildwf := wfB_of_childFind hcw hf
      have hchildnames : ∀ q m, nodeAt child q = some m →
          m.name = (qp ++ [c]) ++ q := by
        intro q m hm
        have h0 := hnames (c :: q) m (by rw [nodeAt_cons, hf]; simpa using hm)
        simpa [List.append_assoc] using h0
      have hchildcomp : ∀ q, (nodeAt child q).isSome →
          ((qp ++ [c]) ++ q) ∈ idx.map Prod.fst := by
        intro q hq
        have h0 := hcomp (c :: q) (by rw [nodeAt_cons, hf]; simpa using hq)
        simpa [List.append_assoc] using h0
      have hchildname : child.name = qp ++ [c] := by
        simpa using hchildnames [] child rfl
      have hlast : child.name.lastComp = c := by
        rw [hchildname]
        exact lastComp_append qp c
      obtain ⟨IHsome, IHnone⟩ := ih false (qp ++ [c]) child idx hchildwf
        hchildnames hchildcomp hknd htarget
      rcases hrec : NamedTree.removeGo false child rest idx with ⟨res, idx''⟩
      cases res with
      | some child' =>
        constructor
        · intro nd1 idx' hrun
          rw [removeGo_cons_some hf hrec] at hrun
          injection hrun with h1 h2
          injection h1 with h1
          subst h2
          have hih := IHsome child' idx'' hrec
          rw [← h1, countNodes_eq, countNodes_eq,
            NamedNode.children_withChildren, countNodesList_eq_sum,
            countNodesList_eq_sum]
          have hsum := sumf_setChild_found countNodes child' hs hf
          omega
        · intro idx' hrun
          rw [removeGo_cons_some hf hrec] at hrun
          injection hrun with h1 h2
          exact absurd h1 (by simp)
      | none =>
        have hih := IHnone idx'' hrec
        have hsum := sumf_eraseChild countNodes
          (show childFind nd.children child.name.lastComp = some child from
            by rw [hlast]; exact hf)
        cases hv : (nd.withChildren
            (eraseChild nd.children child.name.lastComp)).isValid isRoot with
        | true =>
          constructor
          · intro nd1 idx' hrun
            rw [removeGo_cons_pruned_valid hf hrec hv] at hrun
            injection hrun with h1 h2
            injection h1 with h1
            subst h2
            rw [← h1, countNodes_eq, countNodes_eq,
              NamedNode.children_withChildren, countNodesList_eq_sum,
              countNodesList_eq_sum]
            omega
          · intro idx' hrun
            rw [removeGo_cons_pruned_valid hf hrec hv] at hrun
            injection hrun with h1 h2
            exact absurd h1 (by simp)
        | false =>
          constructor
          · intro nd1 idx' hrun
            rw [removeGo_cons_pruned_invalid hf hrec hv] at hrun
            injection hrun with h1 h2
            exact absurd h1 (by simp)
          · intro idx' hrun
            rw [removeGo_cons_pruned_invalid hf hrec hv] at hrun
            injection hrun with h1 h2
            subst h2
            obtain ⟨hch, _, _⟩ := isValid_false hv
            rw [NamedNode.children_withChildren] at hch
            have hqp : nd.name = qp := by simpa using hnames [] nd rfl
            have hcount : countNodes nd = 1 + countNodes child := by
              rw [countNodes_eq, countNodesList_eq_sum]
              rw [hch] at hsum
              simp only [List.map_nil, List.sum_nil, Nat.zero_add] at hsum
              omega
            have hmemqp : nd.name ∈ idx''.map Prod.fst := by
              have h0 : nd.name ∈ idx.map Prod.fst := by
                rw [hqp]
                simpa using hcomp [] (by simp)
              rcases List.mem_map.mp h0 with ⟨e0, he0, hfst⟩
              by_cases hmem : e0 ∈ idx''
              · rw [← hfst]
                exact List.mem_map_of_mem Prod.fst hmem
              · obtain ⟨q', _, hkey', _⟩ := removeGo_erased rest false
                  (qp ++ [c]) child idx hchildwf hchildnames htarget e0 he0
                  (by rw [hrec]; exact hmem)
                have hlen := congrArg List.length hkey'
                rw [hfst, hqp] at hlen
                simp at hlen
            have hknd'' : (idx''.map Prod.fst).Nodup := by
              refine keys_nodup_of_sublist ?_ hknd
              have h0 := removeGo_idx_sublist rest false child idx
              rw [hrec] at h0
              exact h0
            have hlen := length_idxEraseKey_mem hknd'' hmemqp
            omega

theorem removeGo_popCount (path : NName) :
    ∀ (isRoot : Bool) (qp : NName) (nd : NamedNode V) (idx : NIndex),
    nd.wfB = true →
    (∀ q m, nodeAt nd q = some m → m.name = qp ++ q) →
    (nodeAt nd path).isSome →
    (∀ nd1 idx', NamedTree.removeGo isRoot nd path idx = (some nd1, idx') →
      popCount nd1 +
        (if ((nodeAt nd path).bind NamedNode.value).isSome then 1 else 0) =
        popCount nd) ∧
    (∀ idx', NamedTree.removeGo isRoot nd path idx = (none, idx') →
      (if ((nodeAt nd path).bind NamedNode.value).isSome then 1 else 0) =
        popCount nd) := by
  induction path with
  | nil =>
    intro isRoot qp nd idx hw hnames _
    cases hv : (nd.setValue none).isValid isRoot with
    | true =>
      constructor
      · intro nd1 idx' hrun
        rw [removeGo_nil_valid hv] at hrun
        injection hrun with h1 h2
        injection h1 with h1
        rw [← h1, popCount_eq, popCount_eq, NamedNode.children_setValue,
          NamedNode.value_setValue]
        simp only [nodeAt_nil, Option.some_bind, Option.isSome_none,
          Bool.false_eq_true, if_false]
        omega
      · intro idx' hrun
        rw [removeGo_nil_valid hv] at hrun
        injection hrun with h1 h2
        exact absurd h1 (by simp)
    | false =>
      constructor
      · intro nd1 idx' hrun
        rw [removeGo_nil_invalid hv] at hrun
        injection hrun with h1 h2
        exact absurd h1 (by simp)
      · intro idx' hrun
        obtain ⟨hch, _, _⟩ := isValid_false hv
        rw [NamedNode.children_setValue] at hch
        rw [popCount_eq, hch]
        simp only [nodeAt_nil, Option.some_bind]
        rw [show popCountList ([] : List (Comp × NamedNode V)) = 0 from rfl]
        omega
  | cons c rest ih =>
    intro isRoot qp nd idx hw hnames htarget
    obtain ⟨hs, hcw⟩ := wfB_children hw
    rw [nodeAt_cons] at htarget
    cases hf : childFind nd.children c with
    | none => simp [hf] at htarget
    | some child =>
      rw [hf] at htarget
      simp only [Option.some_bind] at htarget
      have hchildwf := wfB_of_childFind hcw hf
      have hchildnames : ∀ q m, nodeAt child q = some m →
          m.name = (qp ++ [c]) ++ q := by
        intro q m hm
        have h0 := hnames (c :: q) m (by rw [nodeAt_cons, hf]; simpa using hm)
        simpa [List.append_assoc] using h0
      have hchildname : child.name = qp ++ [c] := by
        simpa using hchildnames [] child rfl
      have hlast : child.name.lastComp = c := by
        rw [hchildname]
        exact lastComp_append qp c
      obtain ⟨IHsome, IHnone⟩ := ih false (qp ++ [c]) child idx hchildwf
        hchildnames htarget
      rcases hrec : NamedTree.removeGo false child rest idx with ⟨res, idx''⟩
      have hXeq : ((nodeAt nd (c :: rest)).bind NamedNode.value) =
          ((nodeAt child rest).bind NamedNode.value) := by
        rw [nodeAt_cons, hf]
        simp
      cases res with
      | some child' =>
        constructor
        · intro nd1 idx' hrun
          rw [removeGo_cons_some hf hrec] at hrun
          injection hrun with h1 h2
          injection h1 with h1
          have hih := IHsome child' idx'' hrec
          rw [← h1, popCount_eq, popCount_eq,
            NamedNode.children_withChildren, NamedNode.value_withChildren,
            popCountList_eq_sum, popCountList_eq_sum, hXeq]
          have hsum := sumf_setChild_found popCount child' hs hf
          omega
        · intro idx' hrun
          rw [removeGo_cons_some hf hrec] at hrun
          injection hrun with h1 h2
          exact absurd h1 (by simp)
      | none =>
        have hih := IHnone idx'' hrec
        have hsum := sumf_eraseChild popCount
          (show childFind nd.children child.name.lastComp = some child from
            by rw [hlast]; exact hf)
        cases hv : (nd.withChildren
            (eraseChild nd.children child.name.lastComp)).isValid isRoot with
        | true =>
          constructor
          · intro nd1 idx' hrun
            rw [removeGo_cons_pruned_valid hf hrec hv] at hrun
            injection hrun with h1 h2
            injection h1 with h1
            rw [← h1, popCount_eq, popCount_eq,
              NamedNode.children_withChildren, NamedNode.value_withChildren,
              popCountList_eq_sum, popCountList_eq_sum, hXeq]
            omega
          · intro idx' hrun
            rw [removeGo_cons_pruned_valid hf hrec hv] at hrun
            injection hrun with h1 h2
            exact absurd h1 (by simp)
        | false =>
          constructor
          · intro nd1 idx' hrun
            rw [removeGo_cons_pruned_invalid hf hrec hv] at hrun
            injection hrun with h1 h2
            exact absurd h1 (by simp)
          · intro idx' hrun
            obtain ⟨hch, hvnone, _⟩ := isValid_false hv
            rw [NamedNode.children_withChildren] at hch
            rw [NamedNode.value_withChildren] at hvnone
            rw [popCount_eq, popCountList_eq_sum, hXeq, hvnone]
            rw [hch] at hsum
            simp only [List.map_nil, List.sum_nil, Nat.zero_add] at hsum
            simp only [Option.isSome_none, Bool.false_eq_true, if_false]
            omega

end RemoveLemmas

section OpLemmas

variable {V : Type}

theorem stamp_parts {a b : NamedNode V} (h : stamp a = stamp b) :
    a.gen = b.gen ∧ a.name = b.name :=
  ⟨congrArg Prod.fst h, congrArg Prod.snd h⟩

theorem wf_names {t : NamedTree V} (hwf : TreeWF t) :
    ∀ q m, nodeAt t.root q = some m → m.name = q := by
  intro q m hq
  obtain ⟨g, hg⟩ := hwf.complete q (by rw [hq]; rfl)
  obtain ⟨nd, hnd, _, hname⟩ := hwf.resolveOK _ hg
  rw [hq] at hnd
  injection hnd with hnd
  rw [← hnd] at hname
  exact hname

theorem wf_names0 {t : NamedTree V} (hwf : TreeWF t) :
    ∀ q m, nodeAt t.root q = some m → m.name = [] ++ q := by
  intro q m hq
  simpa using wf_names hwf q m hq

theorem wf_comp0 {t : NamedTree V} (hwf : TreeWF t) :
    ∀ q, (nodeAt t.root q).isSome → ([] ++ q) ∈ t.index.map Prod.fst := by
  intro q hq
  obtain ⟨g, hg⟩ := hwf.complete q hq
  simpa using List.mem_map_of_mem Prod.fst hg

theorem wf_resolve {t : NamedTree V} (hwf : TreeWF t) {n : NName} {g : Nat}
    (h : idxFind t.index n = some g) :
    ∃ nd, resolve t.root n g = some nd ∧ nodeAt t.root n = some nd ∧
      nd.name = n := by
  obtain ⟨nd, hnd, hgen, hname⟩ := hwf.resolveOK _ (idxFind_mem h)
  simp only at hnd hgen hname
  refine ⟨nd, ?_, hnd, hname⟩
  rw [resolve, hnd]
  show (if nd.gen = g then some nd else none) = some nd
  rw [if_pos hgen]

theorem wf_nodeAt_of_find {t : NamedTree V} (hwf : TreeWF t) {n : NName}
    (h : idxFind t.index n = none) : nodeAt t.root n = none := by
  cases hq : nodeAt t.root n with
  | none => rfl
  | some m =>
    obtain ⟨g, hg⟩ := hwf.complete n (by rw [hq]; rfl)
    have := idxFind_eq_none h
    exact absurd (List.mem_map_of_mem Prod.fst hg) this

theorem wf_habs0 {t : NamedTree V} (hwf : TreeWF t) (n : NName) :
    ∀ i, i < n.length → nodeAt t.root (n.take (i + 1)) = none →
      (([] : NName) ++ n.take (i + 1)) ∉ t.index.map Prod.fst := by
  intro i _ hnone hmem
  rcases List.mem_map.mp hmem with ⟨e, he, hfst⟩
  obtain ⟨nd, hnd, _, _⟩ := hwf.resolveOK _ he
  rw [hfst] at hnd
  simp only [List.nil_append] at hnd
  rw [hnone] at hnd
  exact absurd hnd (by simp)

theorem find_state_eq {t : NamedTree V} (hwf : TreeWF t) (n : NName) :
    (NamedTree.find t n).2 = t := by
  rw [NamedTree.find]
  cases hfind : idxFind t.index n with
  | none => rfl
  | some g =>
    obtain ⟨nd, hres, _, _⟩ := wf_resolve hwf hfind
    show (match resolve t.root n g with
      | some nd => (nd.value, t)
      | none => (none, { t with index := idxEraseKey t.index n })).2 = t
    rw [hres]

theorem findFirstFrom_state_eq {t : NamedTree V} (hwf : TreeWF t)
    (n : NName) (b : Bool) : (NamedTree.findFirstFrom t n b).2 = t := by
  rw [NamedTree.findFirstFrom]
  cases hfind : idxFind t.index n with
  | none => rfl
  | some g =>
    obtain ⟨nd, hres, _, _⟩ := wf_resolve hwf hfind
    show (match resolve t.root n g with
      | none => (FFFOut.ret ([], none),
          { t with index := idxEraseKey t.index n })
      | some node =>
        if node.value.isSome then (FFFOut.ret (node.name, node.value), t)
        else
          match (if b then node.getRightChild else node.getLeftChild) with
          | none => (FFFOut.undef, t)
          | some n0 => (descendLeft n0, t)).2 = t
    rw [hres]
    by_cases hv : nd.value.isSome
    · simp only [if_pos hv]
    · simp only [if_neg hv]
      cases hlr : (if b then nd.getRightChild else nd.getLeftChild) with
      | none => rfl
      | some n0 => rfl

theorem findAllFrom_state_eq {t : NamedTree V} (hwf : TreeWF t) (n : NName)
    (fuel : Nat) : (NamedTree.findAllFrom t n fuel).2 = t := by
  rw [NamedTree.findAllFrom]
  cases hfind : idxFind t.index n with
  | none => rfl
  | some g =>
    obtain ⟨nd, hres, _, _⟩ := wf_resolve hwf hfind
    show (match resolve t.root n g with
      | some node => (NamedTree.findAllFromLoop node fuel [some node] [], t)
      | none => (some [], { t with index := idxEraseKey t.index n })).2 = t
    rw [hres]

theorem removeGo_no_new (path : NName) :
    ∀ (isRoot : Bool) (nd : NamedNode V) (idx : NIndex)
    (nd1 : NamedNode V) (idx' : NIndex), nd.wfB = true →
    NamedTree.removeGo isRoot nd path idx = (some nd1, idx') →
    ∀ q, (nodeAt nd1 q).isSome → (nodeAt nd q).isSome := by
  induction path with
  | nil =>
    intro isRoot nd idx nd1 idx' hw h q hq
    cases hv : (nd.setValue none).isValid isRoot with
    | true =>
      rw [removeGo_nil_valid hv] at h
      injection h with h1 h2
      injection h1 with h1
      rw [← h1] at hq
      cases q with
      | nil => simp
      | cons c q' =>
        rw [nodeAt_cons, NamedNode.children_setValue, ← nodeAt_cons] at hq
        exact hq
    | false =>
      rw [removeGo_nil_invalid hv] at h
      injection h with h1 h2
      exact absurd h1 (by simp)
  | cons c rest ih =>
    intro isRoot nd idx nd1 idx' hw h q hq
    obtain ⟨hs, hcw⟩ := wfB_children hw
    cases hf : childFind nd.children c with
    | none =>
      rw [removeGo_cons_miss hf] at h
      injection h with h1 h2
      injection h1 with h1
      rw [← h1] at hq
      exact hq
    | some child =>
      have hchildwf := wfB_of_childFind hcw hf
      rcases hrec : NamedTree.removeGo false child rest idx with ⟨res, idx''⟩
      cases res with
      | some child' =>
        rw [removeGo_cons_some hf hrec] at h
        injection h with h1 h2
        injection h1 with h1
        rw [← h1] at hq
        cases q with
        | nil => simp
        | cons c' q' =>
          by_cases hcc : c' = c
          · subst hcc
            rw [nodeAt_cons, NamedNode.children_withChildren,
              childFind_setChild_self] at hq
            simp only [Option.some_bind] at hq
            have h3 := ih false child idx child' idx'' hchildwf hrec q' hq
            rw [nodeAt_cons, hf]
            simpa using h3
          · rw [nodeAt_cons, NamedNode.children_withChildren,
              childFind_setChild_other _ _ _ _ hcc, ← nodeAt_cons] at hq
            exact hq
      | none =>
        cases hv : (nd.withChildren
            (eraseChild nd.children child.name.lastComp)).isValid isRoot with
        | true =>
          rw [removeGo_cons_pruned_valid hf hrec hv] at h
          injection h with h1 h2
          injection h1 with h1
          rw [← h1] at hq
          cases q with
          | nil => simp
          | cons c' q' =>
            rw [nodeAt_cons, NamedNode.children_withChildren] at hq
            cases hcf : childFind
                (eraseChild nd.children child.name.lastComp) c' with
            | none =>
              rw [hcf] at hq
              simp at hq
            | some x =>
              rw [hcf] at hq
              have hcf2 : childFind nd.children c' = some x := by
                by_cases hcc : c' = child.name.lastComp
                · subst hcc
                  rw [childFind_eraseChild_self hs] at hcf
                  exact absurd hcf (by simp)
                · rw [← childFind_eraseChild_other nd.children _ _ hcc]
                  exact hcf
              rw [nodeAt_cons, hcf2]
              simpa using hq
        | false =>
          rw [removeGo_cons_pruned_invalid hf hrec hv] at h
          injection h with h1 h2
          exact absurd h1 (by simp)

theorem insert_eq_create {t : NamedTree V} {n : NName}
    (hfind : idxFind t.index n = none) (v : Option V) (r : Bool) :
    NamedTree.insert t n v r =
      { populated := (t.populated + 1) % sizeTMod
        root := (NamedTree.insertGo v n [] t.root t.index t.nextGen).1
        index := (NamedTree.insertGo v n [] t.root t.index t.nextGen).2.1
        nextGen := (NamedTree.insertGo v n [] t.root t.index t.nextGen).2.2
      } := by
  rw [NamedTree.insert, hfind]

theorem insert_eq_found {t : NamedTree V} {n : NName} {g : Nat}
    {nd : NamedNode V} (hfind : idxFind t.index n = some g)
    (hres : resolve t.root n g = some nd) (v : Option V) (r : Bool) :
    NamedTree.insert t n v r =
      (if !nd.hasValue then
        { t with root := NamedTree.setValueAt t.root n v
                 populated := (t.populated + 1) % sizeTMod }
      else if r then { t with root := NamedTree.setValueAt t.root n v }
      else t) := by
  rw [NamedTree.insert, hfind]
  show (match resolve t.root n g with
    | some node =>
      if !node.hasValue then
        { t with root := NamedTree.setValueAt t.root n v
                 populated := (t.populated + 1) % sizeTMod }
      else if r then { t with root := NamedTree.setValueAt t.root n v }
      else t
    | none => { t with index := idxEraseKey t.index n }) = _
  rw [hres]

theorem remove_eq_found {t : NamedTree V} {n : NName} {g : Nat}
    {nd : NamedNode V} (hfind : idxFind t.index n = some g)
    (hres : resolve t.root n g = some nd) :
    NamedTree.remove t n =
      { t with
        root := (NamedTree.removeGo true t.root n t.index).1.getD t.root
        index := (NamedTree.removeGo true t.root n t.index).2
        populated := (t.populated + (sizeTMod - 1)) % sizeTMod } := by
  rw [NamedTree.remove, hfind]
  show (match resolve t.root n g with
    | none => { t with index := idxEraseKey t.index n }
    | some _ =>
      { t with
        root := (NamedTree.removeGo true t.root n t.index).1.getD t.root
        index := (NamedTree.removeGo true t.root n t.index).2
        populated := (t.populated + (sizeTMod - 1)) % sizeTMod }) = _
  rw [hres]

theorem stamp_transfer {o1 : Option (NamedNode V)} {m : NamedNode V}
    (h : o1.map stamp = (some m).map stamp) :
    ∃ m', o1 = some m' ∧ m'.gen = m.gen ∧ m'.name = m.name := by
  cases o1 with
  | none => simp at h
  | some m' =>
    refine ⟨m', rfl, ?_⟩
    simp at h
    exact stamp_parts h

theorem isSome_of_stamp_map {o1 o2 : Option (NamedNode V)}
    (h : o1.map stamp = o2.map stamp) : o1.isSome = o2.isSome := by
  cases o1 <;> cases o2 <;> simp_all

theorem wf_of_setValueAt {t t2 : NamedTree V} (hwf : TreeWF t) {n : NName}
    {v : Option V} (hroot : t2.root = NamedTree.setValueAt t.root n v)
    (hidx : t2.index = t.index) : TreeWF t2 := by
  constructor
  · intro e he
    rw [hidx] at he
    obtain ⟨m, hm, hgen, hname⟩ := hwf.resolveOK e he
    have hst := nodeAt_setValueAt_stamp n t.root v e.1
    rw [hm] at hst
    obtain ⟨m', hm', hg', hn'⟩ := stamp_transfer hst
    rw [hroot]
    exact ⟨m', hm', by rw [hg', hgen], by rw [hn', hname]⟩
  · intro q hq
    rw [hroot] at hq
    have hst := nodeAt_setValueAt_stamp n t.root v q
    rw [isSome_of_stamp_map hst] at hq
    obtain ⟨g0, hg0⟩ := hwf.complete q hq
    exact ⟨g0, by rw [hidx]; exact hg0⟩
  · rw [hidx]
    exact hwf.knodup
  · rw [hroot]
    exact wfB_setValueAt hwf.twf n v
  · rw [hidx, hroot, countNodes_setValueAt hwf.twf]
    exact hwf.sizeEq

theorem insert_wf {t : NamedTree V} (hwf : TreeWF t) (n : NName)
    (v : Option V) (r : Bool) : TreeWF (NamedTree.insert t n v r) := by
  cases hfind : idxFind t.index n with
  | some g =>
    obtain ⟨nd, hres, hnode, _⟩ := wf_resolve hwf hfind
    rw [insert_eq_found hfind hres v r]
    by_cases hv : nd.hasValue
    · simp only [hv, Bool.not_true, Bool.false_eq_true, if_false]
      by_cases hr : r
      · simp only [hr, if_true]
        exact wf_of_setValueAt hwf rfl rfl
      · simp only [hr, Bool.false_eq_true, if_false]
        exact hwf
    · have hv' : (!nd.hasValue) = true := by
        cases hb : nd.hasValue
        · rfl
        · exact absurd hb hv
      simp only [hv', if_true]
      exact wf_of_setValueAt hwf rfl rfl
  | none =>
    rw [insert_eq_create hfind v r]
    have hnames0 := wf_names0 hwf
    have habs0 := wf_habs0 hwf n
    constructor
    · intro e he
      rcases insertGo_idx_entries v n [] t.root t.index t.nextGen hnames0
          e he with hold | ⟨r', m', h1, h2, h3, h4⟩
      · obtain ⟨m, hm, hgen, hname⟩ := hwf.resolveOK e hold
        obtain ⟨m', hm', hst, _⟩ := insertGo_nodeAt_old v n [] t.root
          t.index t.nextGen e.1 m hm
        obtain ⟨hg', hn'⟩ := stamp_parts hst
        exact ⟨m', hm', by rw [hg', hgen], by rw [hn', hname]⟩
      · simp only [List.nil_append] at h1
        exact ⟨m', by rw [h1]; exact h2, h3, h4⟩
    · intro q hq
      simp only at hq ⊢
      rcases (insertGo_nodeAt_isSome v n [] t.root t.index t.nextGen
          q).mp hq with hold | ⟨i, hi, rfl⟩
      · obtain ⟨g0, hg0⟩ := hwf.complete q hold
        exact ⟨g0, insertGo_idx_superset v n [] t.root t.index t.nextGen
          (q, g0) hg0⟩
      · cases hq0 : nodeAt t.root (n.take i) with
        | some m0 =>
          obtain ⟨g0, hg0⟩ := hwf.complete (n.take i) (by rw [hq0]; rfl)
          exact ⟨g0, insertGo_idx_superset v n [] t.root t.index t.nextGen
            (n.take i, g0) hg0⟩
        | none =>
          have hmem := insertGo_complete v n [] t.root t.index t.nextGen
            i hi hq0
          simp only [List.nil_append] at hmem
          rcases List.mem_map.mp hmem with ⟨e, he, hfst⟩
          refine ⟨e.2, ?_⟩
          rw [← hfst]
          simpa using he
    · simp only
      exact insertGo_idx_nodup v n [] t.root t.index t.nextGen habs0
        hwf.knodup
    · simp only
      exact insertGo_wfB v n [] t.root t.index t.nextGen hwf.twf
    · simp only
      have hc := insertGo_count v n [] t.root t.index t.nextGen hwf.twf habs0
      have hsz := hwf.sizeEq
      omega

theorem remove_wf {t : NamedTree V} (hwf : TreeWF t) (n : NName) :
    TreeWF (NamedTree.remove t n) := by
  cases hfind : idxFind t.index n with
  | none =>
    rw [NamedTree.remove, hfind]
    exact hwf
  | some g =>
    obtain ⟨nd, hres, hnode, _⟩ := wf_resolve hwf hfind
    rw [remove_eq_found hfind hres]
    obtain ⟨nd1, idx', hrun⟩ := removeGo_isRoot_some t.root n t.index
    have htarget : (nodeAt t.root n).isSome := by rw [hnode]; rfl
    have hR4 := (removeGo_nodeAt n true [] t.root t.index hwf.twf
      (wf_names0 hwf) htarget).1 nd1 idx' hrun
    have hsub : List.Sublist idx' t.index := by
      have h0 := removeGo_idx_sublist n true t.root t.index
      rw [hrun] at h0
      exact h0
    rw [hrun]
    simp only [Option.getD_some]
    constructor
    · intro e he
      simp only at he
      have hold : e ∈ t.index := List.Sublist.mem he hsub
      obtain ⟨m, hm, hgen, hname⟩ := hwf.resolveOK e hold
      rcases hR4 e.1 m hm with ⟨m', hm', hst, _⟩ | ⟨_, hkey, _⟩
      · obtain ⟨hg', hn'⟩ := stamp_parts hst
        exact ⟨m', hm', by rw [hg', hgen], by rw [hn', hname]⟩
      · simp only [List.nil_append] at hkey
        exact absurd (List.mem_map_of_mem Prod.fst he) hkey
    · intro q hq
      simp only at hq ⊢
      have hq0 : (nodeAt t.root q).isSome :=
        removeGo_no_new n true t.root t.index nd1 idx' hwf.twf hrun q hq
      obtain ⟨g0, hg0⟩ := hwf.complete q hq0
      refine ⟨g0, ?_⟩
      by_contra hmem
      obtain ⟨q2, _, hkey2, hcl⟩ := removeGo_erased n true [] t.root t.index
        hwf.twf (wf_names0 hwf) htarget (q, g0) hg0
        (by rw [hrun]; exact hmem)
      simp only [List.nil_append] at hkey2
      have hq2 : q2 = q := by rw [← hkey2]
      have h5 := hcl nd1 (by rw [hrun])
      rw [hq2] at h5
      rw [h5] at hq
      exact absurd hq (by simp)
    · simp only
      exact keys_nodup_of_sublist hsub hwf.knodup
    · simp only
      exact removeGo_wfB n true t.root t.index nd1 idx' hwf.twf hrun
    · simp only
      have hc := (removeGo_count n true [] t.root t.index hwf.twf
        (wf_names0 hwf) (wf_comp0 hwf) hwf.knodup htarget).1 nd1 idx' hrun
      have hsz := hwf.sizeEq
      omega

theorem mod_add_one (a K : Nat) : ((a % K) + 1) % K = (a + 1) % K := by
  conv_lhs => rw [Nat.add_mod]
  conv_rhs => rw [Nat.add_mod]
  rw [Nat.mod_mod]

theorem mod_sub_one {a : Nat} (K : Nat) (hK : 0 < K) (ha : 0 < a) :
    ((a % K) + (K - 1)) % K = (a - 1) % K := by
  obtain ⟨b, rfl⟩ : ∃ b, a = b + 1 := ⟨a - 1, by omega⟩
  have h1 : ((b + 1) % K + (K - 1)) % K = ((b + 1) + (K - 1)) % K := by
    conv_lhs => rw [Nat.add_mod]
    conv_rhs => rw [Nat.add_mod]
    rw [Nat.mod_mod]
  have h2 : (b + 1) + (K - 1) = b + K := by omega
  rw [h1, h2, Nat.add_mod_right]
  simp

theorem sizeTMod_pos : 0 < sizeTMod := by
  rw [sizeTMod]
  exact Nat.two_pow_pos 64

theorem initial_wf (V : Type) : TreeWF (NamedTree.initialTree V) := by
  constructor
  · intro e he
    simp only [NamedTree.initialTree, List.mem_singleton] at he
    subst he
    exact ⟨NamedNode.mk 0 [] none [], rfl, rfl, rfl⟩
  · intro q hq
    rw [show (NamedTree.initialTree V).root = NamedNode.mk 0 [] none []
      from rfl, nodeAt_leaf_isSome] at hq
    subst hq
    exact ⟨0, by simp [NamedTree.initialTree]⟩
  · simp [NamedTree.initialTree]
  · rw [NamedTree.initialTree]
    exact wfB_leaf 0 [] none
  · show (1 : Nat) = countNodes (NamedNode.mk 0 [] none [])
    rw [countNodes_eq]
    rfl

theorem reach_wf {t : NamedTree V} (h : Reach t) : TreeWF t := by
  induction h with
  | init => exact initial_wf V
  | insert s n v r _ ih => exact insert_wf ih n v r
  | remove s n _ ih => exact remove_wf ih n
  | find s n _ ih =>
    rw [find_state_eq ih]
    exact ih
  | fff s n b _ ih =>
    rw [findFirstFrom_state_eq ih]
    exact ih
  | faf s n fuel _ ih =>
    rw [findAllFrom_state_eq ih]
    exact ih

theorem greach_reach {t : NamedTree V} (h : GReach t) : Reach t := by
  induction h with
  | init => exact Reach.init
  | insert s n v r _ ih => exact Reach.insert s n (some v) r ih
  | remove s n _ _ ih => exact Reach.remove s n ih
  | find s n _ ih => exact Reach.find s n ih
  | fff s n b _ ih => exact Reach.fff s n b ih
  | faf s n fuel _ ih => exact Reach.faf s n fuel ih

theorem greach_populated {t : NamedTree V} (h : GReach t) :
    t.populated = popCount t.root % sizeTMod := by
  induction h with
  | init =>
    show (0 : Nat) = popCount (NamedNode.mk 0 [] none []) % sizeTMod
    rw [show popCount (NamedNode.mk 0 [] none
      ([] : List (Comp × NamedNode V))) = 0 from rfl]
    simp
  | insert s n v r hs ih =>
    have hwf := reach_wf (greach_reach hs)
    cases hfind : idxFind s.index n with
    | some g =>
      obtain ⟨nd, hres, hnode, _⟩ := wf_resolve hwf hfind
      rw [insert_eq_found hfind hres (some v) r]
      by_cases hv : nd.hasValue
      · simp only [hv, Bool.not_true, Bool.false_eq_true, if_false]
        by_cases hr : r
        · simp only [hr, if_true]
          have hp := popCount_setValueAt hwf.twf (some v) hnode
          have hvs : nd.value.isSome = true := hv
          rw [hvs] at hp
          simp only [Option.isSome_some, if_true] at hp
          have hpq : popCount (NamedTree.setValueAt s.root n (some v)) =
              popCount s.root := by omega
          show s.populated = _ % sizeTMod
          rw [hpq]
          exact ih
        · simp only [hr, Bool.false_eq_true, if_false]
          exact ih
      · have hv' : (!nd.hasValue) = true := by
          cases hb : nd.hasValue
          · rfl
          · exact absurd hb hv
        simp only [hv', if_true]
        have hp := popCount_setValueAt hwf.twf (some v) hnode
        have hvs : nd.value.isSome = false := by
          rw [NamedNode.hasValue] at hv
          cases hb : nd.value.isSome
          · rfl
          · exact absurd hb hv
        rw [hvs] at hp
        simp only [Option.isSome_some, if_true, Bool.false_eq_true,
          if_false, Nat.add_zero] at hp
        show (s.populated + 1) % sizeTMod = _ % sizeTMod
        rw [ih, mod_add_one, hp]
    | none =>
      rw [insert_eq_create hfind (some v) r]
      have hnone : nodeAt s.root n = none := wf_nodeAt_of_find hwf hfind
      have hp := insertGo_popCount (some v) n [] s.root s.index s.nextGen
        hwf.twf
      rw [hnone] at hp
      simp only [Option.none_bind, Option.isSome_none, Bool.false_eq_true,
        if_false, Nat.add_zero, Option.isSome_some, if_true] at hp
      show (s.populated + 1) % sizeTMod = _ % sizeTMod
      rw [ih, mod_add_one, hp]
  | remove s n hs hval ih =>
    have hwf := reach_wf (greach_reach hs)
    cases hnode : nodeAt s.root n with
    | none =>
      rw [hnode] at hval
      simp at hval
    | some nd0 =>
      obtain ⟨g, hg⟩ := hwf.complete n (by rw [hnode]; rfl)
      have hfind : (idxFind s.index n).isSome :=
        idxFind_isSome_of_mem (List.mem_map_of_mem Prod.fst hg)
      obtain ⟨g', hfind'⟩ := Option.isSome_iff_exists.mp hfind
      obtain ⟨nd, hres, hnode', _⟩ := wf_resolve hwf hfind'
      rw [remove_eq_found hfind' hres]
      obtain ⟨nd1, idx', hrun⟩ := removeGo_isRoot_some s.root n s.index
      have htarget : (nodeAt s.root n).isSome := by rw [hnode]; rfl
      have hp := (removeGo_popCount n true [] s.root s.index hwf.twf
        (wf_names0 hwf) htarget).1 nd1 idx' hrun
      rw [hnode] at hval hp
      simp only [Option.some_bind] at hval hp
      simp only [hval, if_true] at hp
      have hpos : 0 < popCount s.root := by omega
      have hroot' : (NamedTree.removeGo true s.root n s.index).1.getD s.root
          = nd1 := by
        rw [hrun]
        rfl
      show (s.populated + (sizeTMod - 1)) % sizeTMod =
        popCount ((NamedTree.removeGo true s.root n s.index).1.getD s.root)
          % sizeTMod
      rw [hroot', ih, mod_sub_one sizeTMod sizeTMod_pos hpos]
      congr 1
      omega
  | find s n _ ih =>
    have hwf := reach_wf (greach_reach (by assumption))
    rw [find_state_eq hwf]
    exact ih
  | fff s n b _ ih =>
    have hwf := reach_wf (greach_reach (by assumption))
    rw [findFirstFrom_state_eq hwf]
    exact ih
  | faf s n fuel _ ih =>
    have hwf := reach_wf (greach_reach (by assumption))
    rw [findAllFrom_state_eq hwf]
    exact ih

theorem findAllFromLoop_diverges (node : NamedNode V)
    (hch : node.children ≠ []) :
    ∀ (fuel : Nat) (stack : List (Option (NamedNode V)))
    (acc : List (NName × Option V)), stack ≠ [] →
    NamedTree.findAllFromLoop node fuel stack acc = none := by
  intro fuel
  induction fuel with
  | zero =>
    intro stack acc hst
    cases stack with
    | nil => exact absurd rfl hst
    | cons top rest => rfl
  | succ f ih =>
    intro stack acc hst
    cases stack with
    | nil => exact absurd rfl hst
    | cons top rest =>
      rw [NamedTree.findAllFromLoop]
      apply ih
      intro hemp
      rcases List.append_eq_nil.mp hemp with ⟨h1, _⟩
      rw [List.reverse_eq_nil_iff, NamedNode.getChildren,
        List.append_eq_nil] at h1
      exact hch (List.map_eq_nil_iff.mp h1.2)

theorem findLastUntilGo_spec (q : NName) :
    ∀ (nd : NamedNode V) (value : Option V),
    NamedTree.findLastUntilGo nd value q =
      (((nd :: visChain nd q).getLastD nd).name,
        lastHolder value (visChain nd q)) := by
  induction q with
  | nil =>
    intro nd value
    rw [NamedTree.findLastUntilGo, visChain]
    simp [lastHolder]
  | cons c q' ih =>
    intro nd value
    rw [NamedTree.findLastUntilGo, visChain]
    cases hf : childFind nd.children c with
    | none => simp [lastHolder]
    | some child =>
      show NamedTree.findLastUntilGo child
          (if child.hasValue then child.value else value) q' =
        (((nd :: (child :: visChain child q')).getLastD nd).name,
          lastHolder value (child :: visChain child q'))
      rw [ih child (if child.hasValue then child.value else value),
        lastHolder]
      rw [List.getLastD_cons, List.getLastD_cons, List.getLastD_cons]
      rfl

end OpLemmas

/-- C1 counterexample: the claim fails on the code as stated.  (a) After
`insert("/a", nullptr)` on a fresh tree, `getPopulatedNodes()` is `1`
although no node holds a value.  (b) After `insert("/a/b", v)` then
`remove("/a")` (a registered but value-less name), `getPopulatedNodes()`
is `0` although one node (`/a/b`) still holds a value. -/
theorem claim_C1_counterexample :
    (NamedTree.getPopulatedNodes
        (NamedTree.insert (NamedTree.initialTree Nat) [0] none false) = 1 ∧
      popCount
        (NamedTree.insert (NamedTree.initialTree Nat) [0] none
          false).root = 0) ∧
    (NamedTree.getPopulatedNodes
        (NamedTree.remove
          (NamedTree.insert (NamedTree.initialTree Nat) [0, 1] (some 5)
            false) [0]) = 0 ∧
      popCount
        (NamedTree.remove
          (NamedTree.insert (NamedTree.initialTree Nat) [0, 1] (some 5)
            false) [0]).root = 1) := by
  refine ⟨⟨by decide, by decide⟩, by decide, by decide⟩

/-- C1 (amended): in every reachable state `size()` equals the number of
registered nodes (the root counted), and under the discipline that every
`insert` carries a non-null value and every `remove` targets a name whose
node currently holds a value, `getPopulatedNodes()` equals the exact
number of value-holding nodes (whenever that number is below `2 ^ 64`,
the `size_t` modulus); every public operation preserves this. -/
theorem claim_C1_amended_counters :
    (∀ (V : Type) (s : NamedTree V), Reach s →
      NamedTree.size s = countNodes s.root) ∧
    (∀ (V : Type) (s : NamedTree V), GReach s →
      popCount s.root < sizeTMod →
      NamedTree.getPopulatedNodes s = popCount s.root) := by
  constructor
  · intro V s hs
    exact (reach_wf hs).sizeEq
  · intro V s hs hlt
    rw [NamedTree.getPopulatedNodes, greach_populated hs,
      Nat.mod_eq_of_lt hlt]

/-- Witness for C1: the amended invariant evaluated on the freshly
constructed tree. -/
theorem claim_C1_witness :
    NamedTree.size (NamedTree.initialTree Nat) =
      countNodes (NamedTree.initialTree Nat).root ∧
    NamedTree.getPopulatedNodes (NamedTree.initialTree Nat) =
      popCount (NamedTree.initialTree Nat).root :=
  ⟨claim_C1_amended_counters.1 Nat (NamedTree.initialTree Nat) Reach.init,
    claim_C1_amended_counters.2 Nat (NamedTree.initialTree Nat) GReach.init
      (by decide)⟩

/-- C2: the claim fails on the code.  The `while` loop of `findAllFrom`
always reads and pushes the children of `node` — the node the lookup
returned — instead of the popped stack top (bound to the unused variable
`parent`), so whenever that node has at least one child the stack grows
at every iteration and the loop never terminates: here, after
`insert("/a", v)`, `findAllFrom("/")` runs out of any amount of fuel. -/
theorem claim_C2_findAllFrom_diverges :
    ∀ fuel : Nat,
    (NamedTree.findAllFrom
      (NamedTree.insert (NamedTree.initialTree Nat) [0] (some 5) false)
      [] fuel).1 = none := by
  intro fuel
  show NamedTree.findAllFromLoop
    (NamedTree.insert (NamedTree.initialTree Nat) [0] (some 5) false).root
    fuel
    [some (NamedTree.insert (NamedTree.initialTree Nat) [0] (some 5)
      false).root] [] = none
  apply findAllFromLoop_diverges
  · have hlen : (NamedTree.insert (NamedTree.initialTree Nat) [0] (some 5)
        false).root.children.length = 1 := by decide
    intro h
    rw [h] at hlen
    simp at hlen
  · exact List.cons_ne_nil _ _

/-- Witness for C2: the divergence theorem applied at fuel five. -/
theorem claim_C2_witness :
    (NamedTree.findAllFrom
      (NamedTree.insert (NamedTree.initialTree Nat) [0] (some 5) false)
      [] 5).1 = none :=
  claim_C2_findAllFrom_diverges 5

/-- C3: the claim fails on the code.  `insert("/a", nullptr)` on a fresh
tree stores a null value — `find("/a")` duly reports not-found and no node
holds a value — yet `insert` unconditionally executes
`++_populated_nodes`, so `getPopulatedNodes()` still becomes `1`. -/
theorem claim_C3_null_insert_miscount :
    NamedTree.getPopulatedNodes
      (NamedTree.insert (NamedTree.initialTree Nat) [0] none false) = 1 ∧
    (NamedTree.find
      (NamedTree.insert (NamedTree.initialTree Nat) [0] none false)
      [0]).1 = none ∧
    popCount
      (NamedTree.insert (NamedTree.initialTree Nat) [0] none
        false).root = 0 := by
  refine ⟨by decide, rfl, by decide⟩

/-- C4: the claim fails on the code.  `remove` on a registered name whose
node holds no value — here `remove("/")` on a fresh tree — is not a no-op:
after the successful `lock()` the code unconditionally executes
`--_populated_nodes`, wrapping the `size_t` counter from `0` to
`2 ^ 64 - 1`; the tree and the index are indeed unchanged. -/
theorem claim_C4_remove_underflow :
    NamedTree.getPopulatedNodes
      (NamedTree.remove (NamedTree.initialTree Nat) []) = 2 ^ 64 - 1 ∧
    (NamedTree.remove (NamedTree.initialTree Nat) []).root =
      (NamedTree.initialTree Nat).root ∧
    (NamedTree.remove (NamedTree.initialTree Nat) []).index =
      (NamedTree.initialTree Nat).index := by
  refine ⟨by decide, rfl, rfl⟩

/-- C5: the claim fails on the code.  On the registered name `"/"` of a
fresh tree — whose node holds no value and has no children — the descent
of `findFirstFrom` immediately runs out of children, and control reaches
the end of the non-void function body without any `return` statement
(undefined behaviour), instead of reporting not-found. -/
theorem claim_C5_missing_return :
    (NamedTree.findFirstFrom (NamedTree.initialTree Nat) [] false).1 =
      FFFOut.undef ∧
    (NamedTree.initialTree Nat).root.value = none ∧
    (NamedTree.initialTree Nat).root.children = [] :=
  ⟨rfl, rfl, rfl⟩

/-- C6: the claim fails on the code.  `addChild` compares
`_name.getPrefix(-1) == node->getName()` — the receiver's name minus its
last component against the node's full name, the reverse of the stated
precondition.  Attaching the proper child `/a/b` under `/a` fails even
though no child is bound to that component, while attaching a node named
`/a` under `/a/b` succeeds. -/
theorem claim_C6_addChild_swapped :
    ((NamedNode.mk 1 [0] none ([] : List (Comp × NamedNode Nat))).addChild
      (NamedNode.mk 2 [0, 1] none [])).1 = false ∧
    (NamedNode.mk 2 [0, 1] none
      ([] : List (Comp × NamedNode Nat))).name.dropLastComp =
      (NamedNode.mk 1 [0] none ([] : List (Comp × NamedNode Nat))).name ∧
    childFind
      (NamedNode.mk 1 [0] none ([] : List (Comp × NamedNode Nat))).children
      (NamedNode.mk 2 [0, 1] none
        ([] : List (Comp × NamedNode Nat))).name.lastComp = none ∧
    ((NamedNode.mk 1 [0, 1] none
      ([] : List (Comp × NamedNode Nat))).addChild
      (NamedNode.mk 2 [0] none [])).1 = true :=
  ⟨rfl, rfl, rfl, rfl⟩

/-- C7: the claim fails on the code.  `getChildren()` constructs
`std::vector<...> children(_children.size())` — a vector that already
holds `size` default-constructed null shared pointers — and then appends
every child with `emplace_back`, so a node with one child yields two
entries, the first of them null, instead of exactly its children. -/
theorem claim_C7_getChildren_padded :
    (NamedTree.insert (NamedTree.initialTree Nat) [0] (some 5)
      false).root.getChildren.length = 2 ∧
    (NamedTree.insert (NamedTree.initialTree Nat) [0] (some 5)
      false).root.children.length = 1 ∧
    (NamedTree.insert (NamedTree.initialTree Nat) [0] (some 5)
      false).root.getChildren.head? = some none := by
  refine ⟨by decide, by decide, rfl⟩

/-- C8: confirmed.  `findLastUntil` walks from the root consuming one
component per step while a matching child exists and returns the deepest
name actually reached together with the value of the most recently
visited node that has one, the root's value being the initial candidate
(`findLastUntilSpec`, the word-for-word restatement of §4.3); after only
`insert("/a", v1)`, `findLastUntil("/a/b/c")` returns `("/a", v1)`, and
on the empty tree it returns the root name with not-found for every
query. -/
theorem claim_C8_findLastUntil_lpm :
    (∀ (V : Type) (t : NamedTree V) (q : NName),
      NamedTree.findLastUntil t q = findLastUntilSpec t q) ∧
    NamedTree.findLastUntil
      (NamedTree.insert (NamedTree.initialTree Nat) [0] (some 1) false)
      [0, 1, 2] = ([0], some 1) ∧
    (∀ q : NName,
      NamedTree.findLastUntil (NamedTree.initialTree Nat) q =
        ([], none)) := by
  refine ⟨?_, by decide, ?_⟩
  · intro V t q
    rw [NamedTree.findLastUntil, findLastUntilSpec]
    exact findLastUntilGo_spec q t.root t.root.value
  · intro q
    cases q with
    | nil => rfl
    | cons c q' => rfl

/-- Witness for C8: the refinement instantiated at a concrete state and
query. -/
theorem claim_C8_witness :
    NamedTree.findLastUntil (NamedTree.initialTree Nat) [3] =
      findLastUntilSpec (NamedTree.initialTree Nat) [3] :=
  claim_C8_findLastUntil_lpm.1 Nat (NamedTree.initialTree Nat) [3]

/-- C9: confirmed.  Pruning is exact: after `insert("/a/b", v)` then
`remove("/a/b")` only the root survives (`size() == 1`); after
`insert("/a", v1)`, `insert("/a/b", v2)`, `remove("/a/b")` the tree keeps
two nodes and `find("/a") == v1`; and in general, over any reachable
state, a node other than the removed name that holds a value keeps it —
an ancestor holding its own value (or other children) is never pruned. -/
theorem claim_C9_pruning_exact :
    NamedTree.size
      (NamedTree.remove
        (NamedTree.insert (NamedTree.initialTree Nat) [0, 1] (some 7)
          false) [0, 1]) = 1 ∧
    (NamedTree.size
      (NamedTree.remove
        (NamedTree.insert
          (NamedTree.insert (NamedTree.initialTree Nat) [0] (some 1)
            false) [0, 1] (some 2) false) [0, 1]) = 2 ∧
     (NamedTree.find
      (NamedTree.remove
        (NamedTree.insert
          (NamedTree.insert (NamedTree.initialTree Nat) [0] (some 1)
            false) [0, 1] (some 2) false) [0, 1]) [0]).1 = some 1) ∧
    (∀ (V : Type) (s : NamedTree V) (n p : NName) (v : V), Reach s →
      p ≠ n → (nodeAt s.root p).bind NamedNode.value = some v →
      (nodeAt (NamedTree.remove s n).root p).bind NamedNode.value =
        some v) := by
  refine ⟨by decide, ⟨by decide, by decide⟩, ?_⟩
  intro V s n p v hs hne hp
  have hwf := reach_wf hs
  cases hfind : idxFind s.index n with
  | none =>
    rw [NamedTree.remove, hfind]
    exact hp
  | some g =>
    obtain ⟨nd, hres, hnode, _⟩ := wf_resolve hwf hfind
    rw [remove_eq_found hfind hres]
    obtain ⟨nd1, idx', hrun⟩ := removeGo_isRoot_some s.root n s.index
    have htarget : (nodeAt s.root n).isSome := by rw [hnode]; rfl
    obtain ⟨m, hm, hmv⟩ : ∃ m, nodeAt s.root p = some m ∧
        m.value = some v := by
      cases hq : nodeAt s.root p with
      | none =>
        rw [hq] at hp
        simp at hp
      | some m =>
        rw [hq] at hp
        exact ⟨m, rfl, by simpa using hp⟩
    have hR4 := (removeGo_nodeAt n true [] s.root s.index hwf.twf
      (wf_names0 hwf) htarget).1 nd1 idx' hrun p m hm
    have hroot' : (NamedTree.removeGo true s.root n s.index).1.getD s.root
        = nd1 := by
      rw [hrun]
      rfl
    show (nodeAt ((NamedTree.removeGo true s.root n s.index).1.getD s.root)
      p).bind NamedNode.value = some v
    rw [hroot']
    rcases hR4 with ⟨m', hm', _, hval⟩ | ⟨_, _, hvz⟩
    · rw [hm']
      simp only [Option.some_bind]
      rw [hval, if_neg hne, hmv]
    · rcases hvz with hvz | hvz
      · rw [hvz] at hmv
        exact absurd hmv (by simp)
      · exact absurd hvz hne

/-- Witness for C9: the survival clause evaluated on a concrete reachable
state: removing `/a/b` keeps the value stored at `/a`. -/
theorem claim_C9_witness :
    (nodeAt
      (NamedTree.remove
        (NamedTree.insert
          (NamedTree.insert (NamedTree.initialTree Nat) [0] (some 1)
            false) [0, 1] (some 2) false) [0, 1]).root [0]).bind
      NamedNode.value = some 1 :=
  claim_C9_pruning_exact.2.2 Nat
    (NamedTree.insert
      (NamedTree.insert (NamedTree.initialTree Nat) [0] (some 1) false)
      [0, 1] (some 2) false) [0, 1] [0] 1
    (Reach.insert _ _ _ _ (Reach.insert _ _ _ _ Reach.init))
    (by decide) (by decide)

/-- C10: confirmed.  In every state reachable through the public
operations, every entry of the secondary index `_nodes` resolves to a
live node whose generation and stored full name agree with the entry —
so the `lock()` succeeds for every entry and the stale-entry eviction
branches of `find`, `findFirstFrom`, `findAllFrom`, `insert` and `remove`
are never taken; in particular the three queries leave the whole state
unchanged. -/
theorem claim_C10_index_live :
    ∀ (V : Type) (s : NamedTree V), Reach s →
    (∀ e ∈ s.index, ∃ nd, nodeAt s.root e.1 = some nd ∧
      nd.gen = e.2 ∧ nd.name = e.1) ∧
    (∀ n, (NamedTree.find s n).2 = s) ∧
    (∀ n b, (NamedTree.findFirstFrom s n b).2 = s) ∧
    (∀ n fuel, (NamedTree.findAllFrom s n fuel).2 = s) := by
  intro V s hs
  have hwf := reach_wf hs
  exact ⟨hwf.resolveOK, fun n => find_state_eq hwf n,
    fun n b => findFirstFrom_state_eq hwf n b,
    fun n fuel => findAllFrom_state_eq hwf n fuel⟩

/-- Witness for C10: on the freshly constructed tree, `find` leaves the
state untouched. -/
theorem claim_C10_witness :
    (NamedTree.find (NamedTree.initialTree Nat) [0]).2 =
      NamedTree.initialTree Nat :=
  (claim_C10_index_live Nat (NamedTree.initialTree Nat) Reach.init).2.1 [0]
